/-
A verification development for the tree-eclass core: the tree builder
(`app/services/tree_builder.py`) and the tree differ
(`app/services/differ.py`), shallowly embedded in Lean 4.

Modelling conventions:
* Python `os.path.join(a, b)` (POSIX, two arguments) is `pathJoin`.
* Python's `in` substring test is `strContains`.
* Python dicts built by comprehensions (`{f.url: f for f in files}`) are
  modelled as insertion-ordered association lists with overwrite-on-repeat
  (`dictOf`), which reproduces CPython semantics exactly: iteration order is
  first-insertion order of keys, and a repeated key keeps its position while
  the value of the *last* occurrence wins.  `dictGet` is `dict.get`,
  `dictContains` is `key in dict`.
* The `Scraper` collaborator is a record of pure functions; fallible
  operations (`get_links`, `download_file`, `compute_md5`) return
  `Except String _` (Python: raise `RuntimeError`), while `fetch_etag`
  returns `Option String` (it swallows request errors and returns `None`).
* `build_tree` carries a fuel parameter bounding recursion depth (Python
  relies on the interpreter's recursion limit); it additionally returns the
  number of `download_file` calls performed, which the source triggers as a
  side effect, so that download-counting properties can be stated.
* The loops `for i, file_url in enumerate(file_urls): file_name =
  file_names[i]` are embedded as folds over `file_urls.zip file_names`;
  the `Scraper.get_links` of the source always appends a link and its name
  together, so the two lists have equal length and the zip is faithful.
* `os.makedirs(local_path, exist_ok=True)` is a filesystem side effect with
  no influence on the returned data and is not modelled.
-/
import Mathlib

/-! ## Path joining and string containment -/

/-- `s.startswith(pre)`, computed on the character lists. -/
def strStartsWith (s pre : String) : Bool := pre.data.isPrefixOf s.data

/-- `s.endswith(suf)`, computed on the character lists. -/
def strEndsWith (s suf : String) : Bool := suf.data.isSuffixOf s.data

/-- Python `os.path.join(a, b)` for POSIX paths (two arguments). -/
def pathJoin (a b : String) : String :=
  if strStartsWith b "/" then b
  else if a = "" then b
  else if strEndsWith a "/" then a ++ b
  else a ++ "/" ++ b

/-- Python's `pat in s` substring test. -/
def strContains (s pat : String) : Bool :=
  (List.range (s.data.length + 1)).any (fun i => pat.data.isPrefixOf (s.data.drop i))

/-- Python truthiness of an `Optional[str]` value: `None` and `""` are falsy. -/
def truthy : Option String → Bool
  | none => false
  | some s => s ≠ ""

/-! ## CPython dict model (insertion-ordered association list) -/

/-- `d[k] = v`: overwrite in place if the key exists, else append. -/
def dictInsert {α : Type} (d : List (String × α)) (k : String) (v : α) :
    List (String × α) :=
  if d.any (fun p => p.1 = k) then
    d.map (fun p => if p.1 = k then (k, v) else p)
  else d ++ [(k, v)]

/-- `{key a: a for a in l}`. -/
def dictOf {α : Type} (key : α → String) (l : List α) : List (String × α) :=
  l.foldl (fun d a => dictInsert d (key a) a) []

/-- `d.get(k)`. -/
def dictGet {α : Type} (d : List (String × α)) (k : String) : Option α :=
  (d.find? (fun p => p.1 = k)).map (fun p => p.2)

/-- `k in d`. -/
def dictContains {α : Type} (d : List (String × α)) (k : String) : Bool :=
  d.any (fun p => p.1 = k)

/-! ## Data model (`tree_builder.py`, lines 14-30) -/

/-- `File` dataclass: a file in the course content tree. -/
structure File where
  url : String
  name : String
  md5_hash : Option String := none
  etag : Option String := none
deriving DecidableEq

/-- `Node` dataclass: a directory in the course content tree. -/
inductive Node where
  | mk (name url local_path : String) (children : List Node) (files : List File)

def Node.name : Node → String
  | .mk n _ _ _ _ => n

def Node.url : Node → String
  | .mk _ u _ _ _ => u

def Node.local_path : Node → String
  | .mk _ _ p _ _ => p

def Node.children : Node → List Node
  | .mk _ _ _ c _ => c

def Node.files : Node → List File
  | .mk _ _ _ _ f => f

/-! ## Differ (`differ.py`) -/

mutual
/-- `_report_all_added` (differ.py lines 9-23): change messages for a newly
added directory tree — the directory itself, then its files, then its
children recursively. -/
def reportAllAdded : Node → String → List String
  | .mk node_name _ _ children files, base_path =>
    let dir_path := pathJoin base_path node_name
    ("Added directory: " ++ dir_path)
      :: (files.map (fun f => "Added file: " ++ pathJoin dir_path f.name)
          ++ reportAllAddedList children dir_path)

/-- The `for child in node.children: changes.extend(...)` loop of
`_report_all_added`. -/
def reportAllAddedList : List Node → String → List String
  | [], _ => []
  | c :: rest, dir_path => reportAllAdded c dir_path ++ reportAllAddedList rest dir_path
end

/-- The deleted-directories loop of `diff_trees` (differ.py lines 43-46). -/
def diffDeletedDirs (previous latest : Node) : List String :=
  (dictOf Node.name previous.children).filterMap (fun p =>
    if dictContains (dictOf Node.name latest.children) p.1 then none
    else some ("Deleted directory: " ++ pathJoin latest.local_path p.1))

/-- The deleted-files loop of `diff_trees` (differ.py lines 63-66). -/
def diffDeletedFiles (previous latest : Node) : List String :=
  (dictOf File.url previous.files).filterMap (fun p =>
    if dictContains (dictOf File.url latest.files) p.1 then none
    else some ("Deleted file: " ++ pathJoin latest.local_path p.2.name))

/-- The added/updated-files loop of `diff_trees` (differ.py lines 69-77). -/
def diffFileChanges (previous latest : Node) : List String :=
  (dictOf File.url latest.files).filterMap (fun p =>
    let full_file_path := pathJoin latest.local_path p.2.name
    match dictGet (dictOf File.url previous.files) p.1 with
    | none => some ("Added file: " ++ full_file_path)
    | some old_file =>
        if old_file.md5_hash ≠ p.2.md5_hash then
          some ("Modified file: " ++ full_file_path)
        else none)

theorem sizeOf_children_lt (n : Node) : sizeOf n.children < sizeOf n := by
  cases n with
  | mk a b c cs fs => simp [Node.children]; omega

theorem mem_dictInsert {α : Type} {d : List (String × α)} {k : String} {v : α}
    {p : String × α} (h : p ∈ dictInsert d k v) : p ∈ d ∨ p = (k, v) := by
  unfold dictInsert at h
  split at h
  · rcases List.mem_map.mp h with ⟨q, hq, he⟩
    by_cases hk : q.1 = k
    · right; simp [hk] at he; exact he.symm
    · left; simp [hk] at he; exact he ▸ hq
  · rcases List.mem_append.mp h with h | h
    · exact Or.inl h
    · right; simpa using h

theorem mem_foldl_dictInsert {α : Type} {key : α → String} :
    ∀ (l : List α) (d : List (String × α)) (p : String × α),
      p ∈ l.foldl (fun d a => dictInsert d (key a) a) d → p ∈ d ∨ p.2 ∈ l := by
  intro l
  induction l with
  | nil => intro d p h; exact Or.inl h
  | cons a rest ih =>
    intro d p h
    simp only [List.foldl_cons] at h
    rcases ih (dictInsert d (key a) a) p h with h' | h'
    · rcases mem_dictInsert h' with h'' | h''
      · exact Or.inl h''
      · right; simp [h'']
    · right; simp [h']

theorem mem_dictOf {α : Type} {key : α → String} {l : List α}
    {p : String × α} (h : p ∈ dictOf key l) : p.2 ∈ l := by
  rcases mem_foldl_dictInsert l [] p h with h' | h'
  · simp at h'
  · exact h'

/-- `diff_trees` (differ.py lines 25-79). -/
def diff_trees : Option Node → Node → List String
  | none, latest =>
    latest.files.map (fun f => "Added file: " ++ pathJoin latest.name f.name)
      ++ reportAllAddedList latest.children latest.name
  | some previous, latest =>
    let old_dirs := dictOf Node.name previous.children
    let new_dirs := dictOf Node.name latest.children
    diffDeletedDirs previous latest
      ++ (new_dirs.attach.map (fun q =>
            match dictGet old_dirs q.1.1 with
            | none => reportAllAdded q.1.2 latest.local_path
            | some old_dir_node => diff_trees (some old_dir_node) q.1.2)).flatten
      ++ diffDeletedFiles previous latest
      ++ diffFileChanges previous latest
termination_by _o latest => sizeOf latest
decreasing_by
  have h1 : q.1.2 ∈ latest.children := mem_dictOf q.2
  have h2 := List.sizeOf_lt_of_mem h1
  have h3 := sizeOf_children_lt latest
  omega

/-- Unfolding of `diff_trees` in the general (prior-tree-present) case, with
the `attach` bookkeeping of the well-founded recursion removed. -/
theorem diff_trees_some (previous latest : Node) :
    diff_trees (some previous) latest =
      diffDeletedDirs previous latest
        ++ ((dictOf Node.name latest.children).map (fun q =>
              match dictGet (dictOf Node.name previous.children) q.1 with
              | none => reportAllAdded q.2 latest.local_path
              | some old_dir_node => diff_trees (some old_dir_node) q.2)).flatten
        ++ diffDeletedFiles previous latest
        ++ diffFileChanges previous latest := by
  rw [diff_trees]
  congr 1
  congr 1
  rw [List.map_attach]
  simp

/-- Unfolding of `diff_trees` in the no-prior-tree base case. -/
theorem diff_trees_none (latest : Node) :
    diff_trees none latest =
      latest.files.map (fun f => "Added file: " ++ pathJoin latest.name f.name)
        ++ reportAllAddedList latest.children latest.name := by
  rw [diff_trees]

/-! ## Builder (`tree_builder.py`) -/

/-- The Content Fetcher collaborator (`scraper.py`), as a record of pure
functions.  `get_links` returns `(file_urls, dir_urls, file_names,
dir_names)` or raises; `fetch_etag` returns `None` on any request error;
`download_file` returns the downloaded path or raises; `compute_md5` is the
module-level hash function (reading the file at the given path) composed
with the filesystem state, returning the hash or raising. -/
structure Scraper where
  get_links : String → Except String (List String × List String × List String × List String)
  fetch_etag : String → Option String
  download_file : String → String → Except String String
  compute_md5 : String → Except String String

/-- The download-then-hash sequence of `build_tree` (tree_builder.py lines
55-57 and 62-64): download, and if the returned path is truthy, hash it.
The `Nat` component counts `download_file` calls (here, one). -/
def download_and_hash (scraper : Scraper) (file_url local_path : String)
    (etag : Option String) (file_name : String) : Except String (File × Nat) :=
  match scraper.download_file file_url local_path with
  | .error e => .error e
  | .ok downloaded_path =>
    if downloaded_path ≠ "" then
      match scraper.compute_md5 downloaded_path with
      | .error e => .error e
      | .ok h => .ok (⟨file_url, file_name, some h, etag⟩, 1)
    else .ok (⟨file_url, file_name, none, etag⟩, 1)

/-- One iteration of the file loop of `build_tree` (tree_builder.py lines
47-70): the per-file reconciliation policy. -/
def process_file (scraper : Scraper) (local_path : String)
    (old_files_map : List (String × File)) (file_url file_name : String) :
    Except String (File × Nat) :=
  let old_file := dictGet old_files_map file_url
  if strContains file_url "google" then
    download_and_hash scraper file_url local_path none file_name
  else
    let etag := scraper.fetch_etag file_url
    match old_file with
    | none => download_and_hash scraper file_url local_path etag file_name
    | some of =>
      if ¬ truthy etag ∨ of.etag ≠ etag then
        download_and_hash scraper file_url local_path etag file_name
      else
        .ok (⟨file_url, file_name, of.md5_hash, of.etag⟩, 0)

/-- The file loop of `build_tree`, over the zipped `(file_url, file_name)`
pairs, accumulating the appended `File`s in link order and the download
count. -/
def build_files (scraper : Scraper) (local_path : String)
    (old_files_map : List (String × File)) :
    List (String × String) → Except String (List File × Nat)
  | [] => .ok ([], 0)
  | (file_url, file_name) :: rest =>
    match process_file scraper local_path old_files_map file_url file_name with
    | .error e => .error e
    | .ok (f, c) =>
      match build_files scraper local_path old_files_map rest with
      | .error e => .error e
      | .ok (fs, cs) => .ok (f :: fs, c + cs)

/-- The directory loop of `build_tree` (tree_builder.py lines 76-82), over
the zipped `(dir_url, dir_name)` pairs; `step` is the recursive call to
`build_tree` at one smaller depth budget. -/
def build_children
    (step : String → String → String → Option Node → Except String (Node × Nat))
    (local_path : String) (old_children_map : List (String × Node)) :
    List (String × String) → Except String (List Node × Nat)
  | [] => .ok ([], 0)
  | (dir_url, dir_name) :: rest =>
    match step dir_url (pathJoin local_path dir_name) dir_name
        (dictGet old_children_map dir_name) with
    | .error e => .error e
    | .ok (child, k) =>
      match build_children step local_path old_children_map rest with
      | .error e => .error e
      | .ok (cs, ks) => .ok (child :: cs, k + ks)

/-- `old_root.files if old_root else` the empty map's source (tree_builder.py
line 44). -/
def oldFiles : Option Node → List File
  | some r => r.files
  | none => []

/-- `old_root.children if old_root else` the empty map's source
(tree_builder.py line 73). -/
def oldChildren : Option Node → List Node
  | some r => r.children
  | none => []

/-- `build_tree` (tree_builder.py lines 32-84), with a depth budget `fuel`
(Python relies on the interpreter recursion limit) and an instrumented
count of `download_file` calls. -/
def build_tree (scraper : Scraper) :
    Nat → String → String → String → Option Node → Except String (Node × Nat)
  | 0, _, _, _, _ => .error "maximum recursion depth exceeded"
  | fuel + 1, url, local_path, name, old_root =>
    match scraper.get_links url with
    | .error e => .error e
    | .ok (file_urls, dir_urls, file_names, dir_names) =>
      let old_files_map := dictOf File.url (oldFiles old_root)
      match build_files scraper local_path old_files_map (file_urls.zip file_names) with
      | .error e => .error e
      | .ok (files, fileDownloads) =>
        let old_children_map := dictOf Node.name (oldChildren old_root)
        match build_children (build_tree scraper fuel) local_path old_children_map
            (dir_urls.zip dir_names) with
        | .error e => .error e
        | .ok (children, childDownloads) =>
          .ok (Node.mk name url local_path children files, fileDownloads + childDownloads)

/-! ## Dict model characterizations -/
theorem dictContains_dictInsert {α : Type} (d : List (String × α)) (k k' : String) (v : α) :
    dictContains (dictInsert d k v) k' = (dictContains d k' || decide (k = k')) := by
  unfold dictContains dictInsert
  split
  · rename_i h
    have hmap : ∀ (d' : List (String × α)),
        (d'.map (fun p => if p.1 = k then (k, v) else p)).any (fun p => p.1 = k')
          = d'.any (fun p => p.1 = k') := by
      intro d'
      induction d' with
      | nil => simp
      | cons p rest ih =>
        simp only [List.map_cons, List.any_cons, ih]
        by_cases hp : p.1 = k
        · simp [hp]
        · simp [hp]
    rw [hmap]
    by_cases hkk : k = k'
    · subst hkk
      simp [h]
    · simp [hkk]
  · simp [List.any_append]

theorem dictContains_foldl {α : Type} (key : α → String) (k : String) :
    ∀ (l : List α) (d : List (String × α)),
      dictContains (l.foldl (fun d a => dictInsert d (key a) a) d) k
        = (dictContains d k || l.any (fun a => key a = k)) := by
  intro l
  induction l with
  | nil => intro d; simp
  | cons a rest ih =>
    intro d
    simp only [List.foldl_cons, List.any_cons]
    rw [ih, dictContains_dictInsert, Bool.or_assoc]

theorem dictContains_dictOf {α : Type} (key : α → String) (l : List α) (k : String) :
    dictContains (dictOf key l) k = l.any (fun a => key a = k) := by
  unfold dictOf
  rw [dictContains_foldl]
  simp [dictContains]

theorem dictOf_foldl_eq_map {α : Type} (key : α → String) :
    ∀ (l : List α) (d : List (String × α)),
      (l.map key).Nodup → (∀ a ∈ l, dictContains d (key a) = false) →
      l.foldl (fun d a => dictInsert d (key a) a) d = d ++ l.map (fun a => (key a, a)) := by
  intro l
  induction l with
  | nil => intro d _ _; simp
  | cons a rest ih =>
    intro d hnd hd
    simp only [List.map_cons, List.nodup_cons] at hnd
    have hda : dictContains d (key a) = false := hd a (List.mem_cons_self a rest)
    have hins : dictInsert d (key a) a = d ++ [(key a, a)] := by
      unfold dictInsert
      unfold dictContains at hda
      simp [hda]
    have hrest : ∀ b ∈ rest, dictContains (d ++ [(key a, a)]) (key b) = false := by
      intro b hb
      unfold dictContains
      simp only [List.any_append, List.any_cons, List.any_nil, Bool.or_false]
      have h1 : dictContains d (key b) = false := hd b (List.mem_cons_of_mem a hb)
      unfold dictContains at h1
      rw [h1]
      simp only [Bool.false_or, decide_eq_false_iff_not]
      intro he
      apply hnd.1
      rw [he]
      exact List.mem_map_of_mem key hb
    simp only [List.foldl_cons]
    rw [hins, ih (d ++ [(key a, a)]) hnd.2 hrest]
    simp

theorem dictOf_eq_map {α : Type} (key : α → String) (l : List α)
    (h : (l.map key).Nodup) :
    dictOf key l = l.map (fun a => (key a, a)) := by
  unfold dictOf
  rw [dictOf_foldl_eq_map key l [] h]
  · simp
  · intro a _; simp [dictContains]

theorem dictGet_map {α : Type} (key : α → String) (l : List α) (k : String) :
    dictGet (l.map (fun a => (key a, a))) k = l.find? (fun a => key a = k) := by
  induction l with
  | nil => simp [dictGet]
  | cons a rest ih =>
    simp only [List.map_cons]
    unfold dictGet
    rw [List.find?_cons, List.find?_cons]
    by_cases hk : key a = k
    · simp [hk]
    · have h1 : (decide (((key a, a) : String × α).1 = k)) = false := by simp [hk]
      have h2 : (decide (key a = k)) = false := by simp [hk]
      simp only [h1, h2]
      exact ih

theorem dictGet_dictOf_nodup {α : Type} (key : α → String) (l : List α) (k : String)
    (h : (l.map key).Nodup) :
    dictGet (dictOf key l) k = l.find? (fun a => key a = k) := by
  rw [dictOf_eq_map key l h, dictGet_map]

/-! ## Per-level characterizations of the diff under unique keys -/
theorem diffDeletedDirs_eq (previous latest : Node)
    (h : (previous.children.map Node.name).Nodup) :
    diffDeletedDirs previous latest =
      previous.children.filterMap (fun c =>
        if latest.children.any (fun d => d.name = c.name) then none
        else some ("Deleted directory: " ++ pathJoin latest.local_path c.name)) := by
  unfold diffDeletedDirs
  rw [dictOf_eq_map _ _ h, List.filterMap_map]
  have he : ((fun p => if dictContains (dictOf Node.name latest.children) p.1 then none
        else some ("Deleted directory: " ++ pathJoin latest.local_path p.1)) ∘
        (fun c => (Node.name c, c)))
      = (fun c => if latest.children.any (fun d => d.name = c.name) then none
        else some ("Deleted directory: " ++ pathJoin latest.local_path c.name)) := by
    funext c
    simp only [Function.comp_apply, dictContains_dictOf]
  rw [he]

theorem diffDeletedFiles_eq (previous latest : Node)
    (h : (previous.files.map File.url).Nodup) :
    diffDeletedFiles previous latest =
      previous.files.filterMap (fun f =>
        if latest.files.any (fun g => g.url = f.url) then none
        else some ("Deleted file: " ++ pathJoin latest.local_path f.name)) := by
  unfold diffDeletedFiles
  rw [dictOf_eq_map _ _ h, List.filterMap_map]
  have he : ((fun p => if dictContains (dictOf File.url latest.files) p.1 then none
        else some ("Deleted file: " ++ pathJoin latest.local_path p.2.name)) ∘
        (fun f => (File.url f, f)))
      = (fun f => if latest.files.any (fun g => g.url = f.url) then none
        else some ("Deleted file: " ++ pathJoin latest.local_path f.name)) := by
    funext f
    simp only [Function.comp_apply, dictContains_dictOf]
  rw [he]

theorem diffFileChanges_eq (previous latest : Node)
    (hp : (previous.files.map File.url).Nodup)
    (hl : (latest.files.map File.url).Nodup) :
    diffFileChanges previous latest =
      latest.files.filterMap (fun nf =>
        match previous.files.find? (fun of => of.url = nf.url) with
        | none => some ("Added file: " ++ pathJoin latest.local_path nf.name)
        | some old_file =>
            if old_file.md5_hash ≠ nf.md5_hash then
              some ("Modified file: " ++ pathJoin latest.local_path nf.name)
            else none) := by
  unfold diffFileChanges
  rw [dictOf_eq_map _ _ hl, List.filterMap_map]
  have he : ((fun p => match dictGet (dictOf File.url previous.files) p.1 with
        | none => some ("Added file: " ++ pathJoin latest.local_path p.2.name)
        | some old_file =>
            if old_file.md5_hash ≠ p.2.md5_hash then
              some ("Modified file: " ++ pathJoin latest.local_path p.2.name)
            else none) ∘ (fun f => (File.url f, f)))
      = (fun nf => match previous.files.find? (fun of => of.url = nf.url) with
        | none => some ("Added file: " ++ pathJoin latest.local_path nf.name)
        | some old_file =>
            if old_file.md5_hash ≠ nf.md5_hash then
              some ("Modified file: " ++ pathJoin latest.local_path nf.name)
            else none) := by
    funext nf
    simp only [Function.comp_apply, dictGet_dictOf_nodup _ _ _ hp]
  rw [he]

theorem diff_trees_some_nodup (previous latest : Node)
    (hpc : (previous.children.map Node.name).Nodup)
    (hlc : (latest.children.map Node.name).Nodup) :
    diff_trees (some previous) latest =
      diffDeletedDirs previous latest
        ++ (latest.children.map (fun d =>
              match previous.children.find? (fun c => c.name = d.name) with
              | none => reportAllAdded d latest.local_path
              | some old_dir_node => diff_trees (some old_dir_node) d)).flatten
        ++ diffDeletedFiles previous latest
        ++ diffFileChanges previous latest := by
  have he : ((fun q => match dictGet (dictOf Node.name previous.children) q.1 with
        | none => reportAllAdded q.2 latest.local_path
        | some old_dir_node => diff_trees (some old_dir_node) q.2) ∘
        (fun d => (Node.name d, d)))
      = (fun d => match previous.children.find? (fun c => c.name = d.name) with
        | none => reportAllAdded d latest.local_path
        | some old_dir_node => diff_trees (some old_dir_node) d) := by
    funext d
    simp only [Function.comp_apply, dictGet_dictOf_nodup _ _ _ hpc]
  rw [diff_trees_some, dictOf_eq_map _ _ hlc, List.map_map, he]

theorem find?_name_self {l : List Node} {d : Node}
    (hnd : (l.map Node.name).Nodup) (hd : d ∈ l) :
    l.find? (fun c => c.name = d.name) = some d := by
  induction l with
  | nil => cases hd
  | cons a rest ih =>
    simp only [List.map_cons, List.nodup_cons] at hnd
    rw [List.find?_cons]
    rcases List.mem_cons.mp hd with h | h
    · subst h
      simp
    · have hne : a.name ≠ d.name := by
        intro he
        apply hnd.1
        rw [he]
        exact List.mem_map_of_mem Node.name h
      have : (decide (a.name = d.name)) = false := by simp [hne]
      rw [this]
      exact ih hnd.2 h

theorem find?_url_self {l : List File} {f : File}
    (hnd : (l.map File.url).Nodup) (hf : f ∈ l) :
    l.find? (fun g => g.url = f.url) = some f := by
  induction l with
  | nil => cases hf
  | cons a rest ih =>
    simp only [List.map_cons, List.nodup_cons] at hnd
    rw [List.find?_cons]
    rcases List.mem_cons.mp hf with h | h
    · subst h
      simp
    · have hne : a.url ≠ f.url := by
        intro he
        apply hnd.1
        rw [he]
        exact List.mem_map_of_mem File.url h
      have : (decide (a.url = f.url)) = false := by simp [hne]
      rw [this]
      exact ih hnd.2 h

/-! ## Well-formed snapshots -/

mutual
/-- Well-formed snapshot: at every level, child directory names are unique
and file locations (`url`) are unique — the data-model invariants of §3 of
the specification. -/
def nodeWF : Node → Prop
  | .mk _ _ _ children files =>
    (children.map Node.name).Nodup ∧ (files.map File.url).Nodup ∧ nodeListWF children

/-- All members of a list of nodes are well-formed. -/
def nodeListWF : List Node → Prop
  | [] => True
  | c :: rest => nodeWF c ∧ nodeListWF rest
end

theorem nodeWF_iff (n : Node) :
    nodeWF n ↔ (n.children.map Node.name).Nodup ∧ (n.files.map File.url).Nodup
      ∧ nodeListWF n.children := by
  cases n
  exact Iff.rfl

theorem nodeListWF_mem : ∀ {l : List Node}, nodeListWF l → ∀ {c : Node}, c ∈ l → nodeWF c := by
  intro l
  induction l with
  | nil => intro _ c hc; cases hc
  | cons a rest ih =>
    intro h c hc
    rcases List.mem_cons.mp hc with h' | h'
    · exact h' ▸ h.1
    · exact ih h.2 h'

theorem diff_trees_self (T : Node) (h : nodeWF T) : diff_trees (some T) T = [] := by
  obtain ⟨hc, hf, hl⟩ := (nodeWF_iff T).mp h
  rw [diff_trees_some_nodup T T hc hc, diffDeletedDirs_eq T T hc,
    diffDeletedFiles_eq T T hf, diffFileChanges_eq T T hf hf]
  have h1 : T.children.filterMap (fun c =>
      if T.children.any (fun d => d.name = c.name) then none
      else some ("Deleted directory: " ++ pathJoin T.local_path c.name)) = [] := by
    rw [List.filterMap_eq_nil_iff]
    intro c hcmem
    have : T.children.any (fun d => d.name = c.name) = true :=
      List.any_eq_true.mpr ⟨c, hcmem, by simp⟩
    simp [this]
  have h2 : T.files.filterMap (fun f =>
      if T.files.any (fun g => g.url = f.url) then none
      else some ("Deleted file: " ++ pathJoin T.local_path f.name)) = [] := by
    rw [List.filterMap_eq_nil_iff]
    intro f hfmem
    have : T.files.any (fun g => g.url = f.url) = true :=
      List.any_eq_true.mpr ⟨f, hfmem, by simp⟩
    simp [this]
  have h3 : T.files.filterMap (fun nf =>
      match T.files.find? (fun of => of.url = nf.url) with
      | none => some ("Added file: " ++ pathJoin T.local_path nf.name)
      | some old_file =>
          if old_file.md5_hash ≠ nf.md5_hash then
            some ("Modified file: " ++ pathJoin T.local_path nf.name)
          else none) = [] := by
    rw [List.filterMap_eq_nil_iff]
    intro nf hnf
    rw [find?_url_self hf hnf]
    simp
  have h4 : (T.children.map (fun d =>
      match T.children.find? (fun c => c.name = d.name) with
      | none => reportAllAdded d T.local_path
      | some old_dir_node => diff_trees (some old_dir_node) d)).flatten = [] := by
    rw [List.flatten_eq_nil_iff]
    intro xs hxs
    rcases List.mem_map.mp hxs with ⟨d, hd, he⟩
    rw [find?_name_self hc hd] at he
    rw [← he]
    exact diff_trees_self d (nodeListWF_mem hl hd)
  rw [h1, h2, h3, h4]
  simp
termination_by sizeOf T
decreasing_by
  have ha := List.sizeOf_lt_of_mem hd
  have hb := sizeOf_children_lt T
  omega

/-- C6: Round-trip — for every well-formed snapshot `T` (unique child names
and file locations at every level), `diff(T, T)` on the same tree or a
structurally identical copy returns the empty change list. -/
theorem claim_C6_round_trip (T : Node) (h : nodeWF T) :
    diff_trees (some T) T = [] :=
  diff_trees_self T h

/-- Witness for C6 at a concrete two-level snapshot. -/
theorem claim_C6_round_trip_witness :
    diff_trees (some (Node.mk "root" "u" "p"
        [Node.mk "D" "ud" "p/D" [] [⟨"u2", "f2", some "h2", some "e2"⟩]]
        [⟨"u1", "f1", some "h1", none⟩]))
      (Node.mk "root" "u" "p"
        [Node.mk "D" "ud" "p/D" [] [⟨"u2", "f2", some "h2", some "e2"⟩]]
        [⟨"u1", "f1", some "h1", none⟩]) = [] :=
  claim_C6_round_trip _ (by
    refine ⟨by decide, by decide, ⟨by decide, by decide, trivial⟩, trivial⟩)

theorem reportAllAddedList_eq_flatten (l : List Node) (b : String) :
    reportAllAddedList l b = (l.map (fun c => reportAllAdded c b)).flatten := by
  induction l with
  | nil => rfl
  | cons c rest ih => simp [reportAllAddedList, ih]

theorem reportAllAdded_unfold (d : Node) (base : String) :
    reportAllAdded d base =
      ("Added directory: " ++ pathJoin base d.name)
        :: (d.files.map (fun f => "Added file: " ++ pathJoin (pathJoin base d.name) f.name)
            ++ (d.children.map (fun c => reportAllAdded c (pathJoin base d.name))).flatten) := by
  cases d with
  | mk nm u p cs fs =>
    rw [reportAllAdded]
    simp [Node.name, Node.files, Node.children, reportAllAddedList_eq_flatten]

/-- The §8 ordering scenario's new tree: root with one file `f1` and one
directory `D` containing file `f2`. -/
def c2_root : Node :=
  .mk "root" "https://site/root" "store/root"
    [.mk "D" "https://site/D" "store/root/D" [] [⟨"https://site/f2", "f2", some "h2", none⟩]]
    [⟨"https://site/f1", "f1", some "h1", none⟩]


/-- C2: Diff output order.  At every directory level (with the data-model
uniqueness invariants), the diff is exactly: deleted directories in old-list
order, then added/recursed directories in new-list order (an added directory
expanding depth-first: its Added-directory record, then its files in list
order, then its subdirectories recursively), then deleted files, then
added/modified files in new-list order; with no prior tree, root files come
first in list order, then each root child fully expanded depth-first; and on
the concrete scenario (empty old tree; new root with file `f1` and directory
`D` containing `f2`) the output is exactly
`["Added file: root/f1", "Added directory: root/D", "Added file: root/D/f2"]`. -/
theorem claim_C2_diff_ordering :
    (∀ previous latest : Node,
      (previous.children.map Node.name).Nodup →
      (latest.children.map Node.name).Nodup →
      (previous.files.map File.url).Nodup →
      (latest.files.map File.url).Nodup →
      diff_trees (some previous) latest =
        previous.children.filterMap (fun c =>
          if latest.children.any (fun d => d.name = c.name) then none
          else some ("Deleted directory: " ++ pathJoin latest.local_path c.name))
        ++ (latest.children.map (fun d =>
              match previous.children.find? (fun c => c.name = d.name) with
              | none => reportAllAdded d latest.local_path
              | some old_dir_node => diff_trees (some old_dir_node) d)).flatten
        ++ previous.files.filterMap (fun f =>
          if latest.files.any (fun g => g.url = f.url) then none
          else some ("Deleted file: " ++ pathJoin latest.local_path f.name))
        ++ latest.files.filterMap (fun nf =>
          match previous.files.find? (fun of => of.url = nf.url) with
          | none => some ("Added file: " ++ pathJoin latest.local_path nf.name)
          | some old_file =>
              if old_file.md5_hash ≠ nf.md5_hash then
                some ("Modified file: " ++ pathJoin latest.local_path nf.name)
              else none))
    ∧ (∀ d base, reportAllAdded d base =
        ("Added directory: " ++ pathJoin base d.name)
          :: (d.files.map (fun f => "Added file: " ++ pathJoin (pathJoin base d.name) f.name)
              ++ (d.children.map (fun c => reportAllAdded c (pathJoin base d.name))).flatten))
    ∧ (∀ latest : Node, diff_trees none latest =
        latest.files.map (fun f => "Added file: " ++ pathJoin latest.name f.name)
          ++ (latest.children.map (fun c => reportAllAdded c latest.name)).flatten)
    ∧ diff_trees none c2_root =
        ["Added file: root/f1", "Added directory: root/D", "Added file: root/D/f2"] := by
  refine ⟨?_, ?_, ?_, ?_⟩
  · intro previous latest hpc hlc hpf hlf
    rw [diff_trees_some_nodup previous latest hpc hlc,
      diffDeletedDirs_eq previous latest hpc,
      diffDeletedFiles_eq previous latest hpf,
      diffFileChanges_eq previous latest hpf hlf]
  · exact reportAllAdded_unfold
  · intro latest
    rw [diff_trees_none, reportAllAddedList_eq_flatten]
  · rw [diff_trees_none]
    decide

/-- Witness for C2: the general ordering equation instantiated at the
concrete scenario tree diffed against itself. -/
theorem claim_C2_diff_ordering_witness :
    diff_trees (some c2_root) c2_root =
      c2_root.children.filterMap (fun c =>
        if c2_root.children.any (fun d => d.name = c.name) then none
        else some ("Deleted directory: " ++ pathJoin c2_root.local_path c.name))
      ++ (c2_root.children.map (fun d =>
            match c2_root.children.find? (fun c => c.name = d.name) with
            | none => reportAllAdded d c2_root.local_path
            | some old_dir_node => diff_trees (some old_dir_node) d)).flatten
      ++ c2_root.files.filterMap (fun f =>
        if c2_root.files.any (fun g => g.url = f.url) then none
        else some ("Deleted file: " ++ pathJoin c2_root.local_path f.name))
      ++ c2_root.files.filterMap (fun nf =>
        match c2_root.files.find? (fun of => of.url = nf.url) with
        | none => some ("Added file: " ++ pathJoin c2_root.local_path nf.name)
        | some old_file =>
            if old_file.md5_hash ≠ nf.md5_hash then
              some ("Modified file: " ++ pathJoin c2_root.local_path nf.name)
            else none) :=
  claim_C2_diff_ordering.1 c2_root c2_root (by decide) (by decide) (by decide) (by decide)

theorem count_filterMap {α β : Type} [DecidableEq β] (f : α → Option β) (l : List α) (b : β) :
    (l.filterMap f).count b = l.countP (fun a => f a = some b) := by
  induction l with
  | nil => rfl
  | cons a rest ih =>
    rw [List.filterMap_cons, List.countP_cons]
    cases hfa : f a with
    | none => simp [ih]
    | some c =>
      by_cases hcb : c = b
      · subst hcb
        simp [List.count_cons, ih, hfa]
      · simp [List.count_cons, ih, hfa, hcb]

theorem countP_eq_one_of_unique {α : Type} (l : List α) (p : α → Bool) (a : α)
    (hl : l.Nodup) (ha : a ∈ l) (h : ∀ x ∈ l, (p x = true ↔ x = a)) :
    l.countP p = 1 := by
  induction l with
  | nil => cases ha
  | cons y rest ih =>
    have hy := List.nodup_cons.mp hl
    rw [List.countP_cons]
    rcases List.mem_cons.mp ha with hx | hx
    · have hpy : p y = true := (h y (List.mem_cons_self y rest)).mpr hx.symm
      have hrest : rest.countP p = 0 := by
        rw [List.countP_eq_zero]
        intro z hz hpz
        have hza := (h z (List.mem_cons_of_mem y hz)).mp hpz
        have : y ∈ rest := by rw [← hx, ← hza]; exact hz
        exact hy.1 this
      rw [hrest, hpy]
      simp
    · have hpy : p y = false := by
        cases hpy : p y
        · rfl
        · exfalso
          have hya := (h y (List.mem_cons_self y rest)).mp hpy
          have : y ∈ rest := by rw [hya]; exact hx
          exact hy.1 this
      rw [hpy]
      simp only [Bool.false_eq_true, if_false, Nat.add_zero]
      exact ih hy.2 hx (fun z hz => h z (List.mem_cons_of_mem y hz))

theorem string_append_inj {p a b : String} (h : p ++ a = p ++ b) : a = b := by
  have hd : p.data ++ a.data = p.data ++ b.data := by
    have := congrArg String.data h
    simpa using this
  exact String.ext (List.append_cancel_left hd)

theorem added_ne_modified (a b : String) :
    ("Added file: " ++ a) ≠ ("Modified file: " ++ b) := by
  intro h
  have hd := congrArg String.data h
  rw [String.data_append, String.data_append] at hd
  have h1 : ("Added file: ").data = 'A' :: ("dded file: ").data := rfl
  have h2 : ("Modified file: ").data = 'M' :: ("odified file: ").data := rfl
  rw [h1, h2] at hd
  have h3 : ('A' :: (("dded file: ").data ++ a.data) : List Char)
      = 'M' :: (("odified file: ").data ++ b.data) := by
    simp only [List.cons_append] at hd
    exact hd
  injection h3 with hc _
  exact absurd hc (by decide)

theorem pathJoin_inj_right {lp a b : String}
    (ha : strStartsWith a "/" = false) (hb : strStartsWith b "/" = false)
    (h : pathJoin lp a = pathJoin lp b) : a = b := by
  unfold pathJoin at h
  rw [ha, hb] at h
  simp only [Bool.false_eq_true, if_false] at h
  by_cases hlp : lp = ""
  · simpa [hlp] using h
  · rw [if_neg hlp, if_neg hlp] at h
    cases hend : strEndsWith lp "/" with
    | true =>
      rw [hend] at h
      simp only [if_true] at h
      exact string_append_inj h
    | false =>
      rw [hend] at h
      simp only [Bool.false_eq_true, if_false] at h
      exact string_append_inj h

/-- C3: Hash-authoritative modification.  For a file present in both
snapshots under the same location within one directory (with the data-model
uniqueness invariants and relative display names), the diff emits no record
for it when `contentHash` (`md5_hash`) is unchanged — the `changeToken`
(`etag`) being entirely unconstrained — and emits exactly one
Modified-file record when the hashes differ. -/
theorem claim_C3_hash_authoritative
    (previous latest : Node) (nf of : File)
    (hpf : (previous.files.map File.url).Nodup)
    (hlf : (latest.files.map File.url).Nodup)
    (hlnames : (latest.files.map File.name).Nodup)
    (hlrel : ∀ f ∈ latest.files, strStartsWith f.name "/" = false)
    (hpnames : (previous.files.map File.name).Nodup)
    (hprel : ∀ f ∈ previous.files, strStartsWith f.name "/" = false)
    (hnf : nf ∈ latest.files) (hof : of ∈ previous.files)
    (hurl : of.url = nf.url) :
    (of.md5_hash = nf.md5_hash →
      (diffFileChanges previous latest).count
          ("Modified file: " ++ pathJoin latest.local_path nf.name) = 0
      ∧ (diffFileChanges previous latest).count
          ("Added file: " ++ pathJoin latest.local_path nf.name) = 0
      ∧ (diffDeletedFiles previous latest).count
          ("Deleted file: " ++ pathJoin latest.local_path of.name) = 0)
    ∧ (of.md5_hash ≠ nf.md5_hash →
      (diffFileChanges previous latest).count
          ("Modified file: " ++ pathJoin latest.local_path nf.name) = 1) := by
  have hfind : previous.files.find? (fun g => g.url = nf.url) = some of := by
    rw [← hurl]
    exact find?_url_self hpf hof
  have hmod : ∀ x ∈ latest.files,
      ((match previous.files.find? (fun g => g.url = x.url) with
        | none => some ("Added file: " ++ pathJoin latest.local_path x.name)
        | some old_file =>
            if old_file.md5_hash ≠ x.md5_hash then
              some ("Modified file: " ++ pathJoin latest.local_path x.name)
            else none)
        = some ("Modified file: " ++ pathJoin latest.local_path nf.name)) → x = nf := by
    intro x hx heq
    split at heq
    · exact absurd (Option.some.inj heq) (added_ne_modified _ _)
    · split at heq
      · have hname := pathJoin_inj_right (hlrel x hx) (hlrel nf hnf)
          (string_append_inj (p := "Modified file: ") (Option.some.inj heq))
        exact List.inj_on_of_nodup_map hlnames hx hnf hname
      · exact Option.noConfusion heq
  constructor
  · intro heq
    refine ⟨?_, ?_, ?_⟩
    · rw [diffFileChanges_eq _ _ hpf hlf, count_filterMap, List.countP_eq_zero]
      intro x hx
      simp only [decide_eq_true_eq]
      intro habs
      have hxnf := hmod x hx habs
      subst hxnf
      split at habs
      · rename_i hcase
        rw [hfind] at hcase
        exact Option.noConfusion hcase
      · rename_i old_file hcase
        rw [hfind] at hcase
        have hoe : of = old_file := Option.some.inj hcase
        split at habs
        · rename_i hcond
          rw [← hoe] at hcond
          exact hcond heq
        · exact Option.noConfusion habs
    · rw [diffFileChanges_eq _ _ hpf hlf, count_filterMap, List.countP_eq_zero]
      intro x hx
      simp only [decide_eq_true_eq]
      intro habs
      split at habs
      · rename_i hcase
        have hname := pathJoin_inj_right (hlrel x hx) (hlrel nf hnf)
          (string_append_inj (p := "Added file: ") (Option.some.inj habs))
        have hxnf := List.inj_on_of_nodup_map hlnames hx hnf hname
        rw [hxnf, hfind] at hcase
        exact Option.noConfusion hcase
      · split at habs
        · exact (added_ne_modified _ _) (Option.some.inj habs).symm
        · exact Option.noConfusion habs
    · rw [diffDeletedFiles_eq _ _ hpf, count_filterMap, List.countP_eq_zero]
      intro f hf
      simp only [decide_eq_true_eq]
      intro habs
      split at habs
      · exact Option.noConfusion habs
      · rename_i hany
        have hname := pathJoin_inj_right (hprel f hf) (hprel of hof)
          (string_append_inj (p := "Deleted file: ") (Option.some.inj habs))
        have hfof := List.inj_on_of_nodup_map hpnames hf hof hname
        apply hany
        apply List.any_eq_true.mpr
        refine ⟨nf, hnf, ?_⟩
        simp only [decide_eq_true_eq]
        rw [hfof, hurl]
  · intro hne
    rw [diffFileChanges_eq _ _ hpf hlf, count_filterMap]
    apply countP_eq_one_of_unique _ _ nf (List.Nodup.of_map _ hlnames) hnf
    intro x hx
    simp only [decide_eq_true_eq]
    constructor
    · exact hmod x hx
    · intro hxnf
      subst hxnf
      rw [hfind]
      show (if of.md5_hash ≠ x.md5_hash then
          some ("Modified file: " ++ pathJoin latest.local_path x.name)
        else none) = some ("Modified file: " ++ pathJoin latest.local_path x.name)
      rw [if_pos hne]

/-- Witness for C3: a one-file directory whose file kept its location but
changed its hash yields exactly one Modified-file record. -/
theorem claim_C3_hash_authoritative_witness :
    (diffFileChanges (Node.mk "root" "u" "p" [] [⟨"fu", "doc", some "h1", some "e1"⟩])
        (Node.mk "root" "u" "p" [] [⟨"fu", "doc", some "h2", some "e2"⟩])).count
      ("Modified file: " ++ pathJoin "p" "doc") = 1 :=
  (claim_C3_hash_authoritative
    (Node.mk "root" "u" "p" [] [⟨"fu", "doc", some "h1", some "e1"⟩])
    (Node.mk "root" "u" "p" [] [⟨"fu", "doc", some "h2", some "e2"⟩])
    ⟨"fu", "doc", some "h2", some "e2"⟩ ⟨"fu", "doc", some "h1", some "e1"⟩
    (by decide) (by decide) (by decide) (by decide) (by decide) (by decide)
    (by decide) (by decide) (by decide)).2 (by decide)

theorem key_eq_of_mem_dictOf {α : Type} {key : α → String} :
    ∀ (l : List α) (d : List (String × α)),
      (∀ q ∈ d, (q : String × α).1 = key q.2) →
      ∀ p ∈ l.foldl (fun d a => dictInsert d (key a) a) d, (p : String × α).1 = key p.2 := by
  intro l
  induction l with
  | nil => intro d hd p hp; exact hd p hp
  | cons a rest ih =>
    intro d hd p hp
    simp only [List.foldl_cons] at hp
    refine ih (dictInsert d (key a) a) ?_ p hp
    intro q hq
    rcases mem_dictInsert hq with h | h
    · exact hd q h
    · rw [h]

theorem dictOf_key_eq {α : Type} {key : α → String} {l : List α}
    {p : String × α} (h : p ∈ dictOf key l) : p.1 = key p.2 :=
  key_eq_of_mem_dictOf l [] (by intro q hq; cases hq) p h

theorem diff_trees_single_child (p l c d : Node)
    (hp : p.children = [c]) (hl : l.children = [d]) (hname : c.name = d.name) :
    diff_trees (some p) l =
      diff_trees (some c) d ++ diffDeletedFiles p l ++ diffFileChanges p l := by
  have hdel : diffDeletedDirs p l = [] := by
    unfold diffDeletedDirs
    rw [hp, hl]
    simp [dictOf, dictInsert, dictContains, hname]
  have hdict : dictOf Node.name [d] = [(d.name, d)] := by
    simp [dictOf, dictInsert]
  have hget : dictGet (dictOf Node.name [c]) d.name = some c := by
    simp [dictOf, dictInsert, dictGet, hname]
  rw [diff_trees_some, hdel, hl, hp, hdict]
  simp only [List.map_cons, List.map_nil, hget, List.flatten_cons, List.flatten_nil,
    List.nil_append, List.append_nil]

/-- The rename-vs-move scenario: old child directory `Labs` at location `/a`. -/
def labsA : Node := .mk "Labs" "/a" "store/Labs" [] [⟨"fu", "lab1.pdf", some "h", some "e"⟩]

/-- The rename-vs-move scenario: new child directory `Labs` at location `/b`
with the same (unchanged) file inside. -/
def labsB : Node := .mk "Labs" "/b" "store/Labs" [] [⟨"fu", "lab1.pdf", some "h", some "e"⟩]

/-- The rename-vs-move scenario: old root containing `labsA`. -/
def rootA : Node := .mk "course" "ru" "store" [labsA] []

/-- The rename-vs-move scenario: new root containing `labsB`. -/
def rootB : Node := .mk "course" "ru" "store" [labsB] []

/-- C4: Rename-vs-move distinction.  Directory identity is name-based: (i)
whenever every old child's name still occurs among the new children, the
diff emits no Deleted-directory record at that level; (ii) at a level with a
single child on each side bearing the same name, the diff is exactly the
recursive diff of the matched pair plus the file comparison — no
deleted-plus-added pair, whatever the directories' locations; (iii) on the
concrete scenario (old child `{name:"Labs", location:"/a"}`, new child
`{name:"Labs", location:"/b"}`, one unchanged file inside) the diff is
empty. -/
theorem claim_C4_rename_vs_move :
    (∀ previous latest : Node,
      (∀ c ∈ previous.children, latest.children.any (fun d => d.name = c.name) = true) →
      diffDeletedDirs previous latest = [])
    ∧ (∀ p l c d : Node, p.children = [c] → l.children = [d] → c.name = d.name →
        diff_trees (some p) l =
          diff_trees (some c) d ++ diffDeletedFiles p l ++ diffFileChanges p l)
    ∧ diff_trees (some rootA) rootB = [] := by
  refine ⟨?_, diff_trees_single_child, ?_⟩
  · intro previous latest h
    unfold diffDeletedDirs
    rw [List.filterMap_eq_nil_iff]
    intro q hq
    have hmem := mem_dictOf hq
    have hkey := dictOf_key_eq hq
    have := h q.2 hmem
    rw [dictContains_dictOf, hkey]
    simp only [this, if_true]
  · rw [diff_trees_single_child rootA rootB labsA labsB rfl rfl rfl]
    have h1 : diff_trees (some labsA) labsB = [] := by
      rw [diff_trees_some]
      decide
    rw [h1]
    decide

/-- Witness for C4: part (i) instantiated at the concrete scenario roots. -/
theorem claim_C4_rename_vs_move_witness :
    diffDeletedDirs rootA rootB = [] :=
  claim_C4_rename_vs_move.1 rootA rootB (by decide)

theorem find?_replace_mid {α : Type} {l₁ l₂ : List α} {c c' : α} {p : α → Bool}
    (hc : p c = false) (hc' : p c' = false) :
    (l₁ ++ c :: l₂).find? p = (l₁ ++ c' :: l₂).find? p := by
  induction l₁ with
  | nil =>
    simp only [List.nil_append, List.find?_cons, hc, hc']
  | cons a rest ih =>
    simp only [List.cons_append, List.find?_cons]
    cases p a
    · exact ih
    · rfl

/-- The deleted-directory scenario: old root with one child `Old` holding a
file. -/
def oldC7 : Node :=
  .mk "course" "ru" "store" [.mk "Old" "ou" "store/Old" [] [⟨"fu", "f", some "h", none⟩]] []

/-- The deleted-directory scenario: new root with no children. -/
def newC7 : Node := .mk "course" "ru" "store" [] []

/-- C7: Deleted-directory path convention.  (i) An old child whose name is
absent from the new children yields exactly one Deleted-directory record,
whose path joins the *new* root's storage path with the old child's name,
and that record occurs in the diff output; (ii) the diff output is
unchanged when the deleted child's entire contents (and location) are
replaced arbitrarily — only its name matters, so no record is ever emitted
for the deleted directory's files or subdirectories; (iii) on the concrete
scenario (old child `Old` with a file inside, new root with no children)
the whole diff is exactly `["Deleted directory: store/Old"]`. -/
theorem claim_C7_deleted_dir_convention :
    (∀ (previous latest : Node) (c : Node),
      (previous.children.map Node.name).Nodup →
      (∀ x ∈ previous.children, strStartsWith x.name "/" = false) →
      c ∈ previous.children →
      latest.children.any (fun d => d.name = c.name) = false →
      (diffDeletedDirs previous latest).count
          ("Deleted directory: " ++ pathJoin latest.local_path c.name) = 1
        ∧ ("Deleted directory: " ++ pathJoin latest.local_path c.name)
            ∈ diff_trees (some previous) latest)
    ∧ (∀ (nm u lp : String) (fs : List File) (l₁ l₂ : List Node) (c c' : Node)
        (latest : Node),
        ((l₁ ++ c :: l₂).map Node.name).Nodup →
        c.name = c'.name →
        latest.children.any (fun d => d.name = c.name) = false →
        diff_trees (some (Node.mk nm u lp (l₁ ++ c :: l₂) fs)) latest
          = diff_trees (some (Node.mk nm u lp (l₁ ++ c' :: l₂) fs)) latest)
    ∧ diff_trees (some oldC7) newC7 = ["Deleted directory: store/Old"] := by
  refine ⟨?_, ?_, ?_⟩
  · intro previous latest c hpc hprel hc habs
    have hcount : (diffDeletedDirs previous latest).count
        ("Deleted directory: " ++ pathJoin latest.local_path c.name) = 1 := by
      rw [diffDeletedDirs_eq previous latest hpc, count_filterMap]
      apply countP_eq_one_of_unique _ _ c (List.Nodup.of_map _ hpc) hc
      intro x hx
      simp only [decide_eq_true_eq]
      constructor
      · intro hxc
        split at hxc
        · exact Option.noConfusion hxc
        · have hname := pathJoin_inj_right (hprel x hx) (hprel c hc)
            (string_append_inj (p := "Deleted directory: ") (Option.some.inj hxc))
          exact List.inj_on_of_nodup_map hpc hx hc hname
      · intro hxc
        subst hxc
        rw [if_neg (by simp [habs])]
    refine ⟨hcount, ?_⟩
    rw [diff_trees_some]
    apply List.mem_append.mpr
    left
    apply List.mem_append.mpr
    left
    apply List.mem_append.mpr
    left
    exact List.count_pos_iff.mp (by rw [hcount]; exact Nat.one_pos)
  · intro nm u lp fs l₁ l₂ c c' latest hnd hcc habs
    have hnd' : ((l₁ ++ c' :: l₂).map Node.name).Nodup := by
      rw [List.map_append, List.map_cons, ← hcc]
      rw [List.map_append, List.map_cons] at hnd
      exact hnd
    have habs' : ∀ k, dictContains (dictOf Node.name latest.children) k = true → k ≠ c.name := by
      intro k hk he
      rw [dictContains_dictOf] at hk
      rcases List.any_eq_true.mp hk with ⟨d, hd, hdk⟩
      have hh : latest.children.any (fun d => d.name = c.name) = true := by
        apply List.any_eq_true.mpr
        refine ⟨d, hd, ?_⟩
        simp only [decide_eq_true_eq] at hdk ⊢
        rw [hdk, he]
      rw [hh] at habs
      exact Bool.noConfusion habs
    rw [diff_trees_some, diff_trees_some]
    have hnd₁ : ((Node.mk nm u lp (l₁ ++ c :: l₂) fs).children.map Node.name).Nodup := hnd
    have hnd₂ : ((Node.mk nm u lp (l₁ ++ c' :: l₂) fs).children.map Node.name).Nodup := hnd'
    have hseg1 : diffDeletedDirs (Node.mk nm u lp (l₁ ++ c :: l₂) fs) latest
        = diffDeletedDirs (Node.mk nm u lp (l₁ ++ c' :: l₂) fs) latest := by
      rw [diffDeletedDirs_eq _ latest hnd₁, diffDeletedDirs_eq _ latest hnd₂]
      show (l₁ ++ c :: l₂).filterMap _ = (l₁ ++ c' :: l₂).filterMap _
      rw [List.filterMap_append, List.filterMap_append, List.filterMap_cons,
        List.filterMap_cons, ← hcc]
    have hseg2 : ((dictOf Node.name latest.children).map (fun q =>
          match dictGet (dictOf Node.name (Node.mk nm u lp (l₁ ++ c :: l₂) fs).children) q.1 with
          | none => reportAllAdded q.2 latest.local_path
          | some old_dir_node => diff_trees (some old_dir_node) q.2))
        = ((dictOf Node.name latest.children).map (fun q =>
          match dictGet (dictOf Node.name (Node.mk nm u lp (l₁ ++ c' :: l₂) fs).children) q.1 with
          | none => reportAllAdded q.2 latest.local_path
          | some old_dir_node => diff_trees (some old_dir_node) q.2)) := by
      apply List.map_congr_left
      intro q hq
      have hqk : dictContains (dictOf Node.name latest.children) q.1 = true := by
        unfold dictContains
        apply List.any_eq_true.mpr
        exact ⟨q, hq, by simp⟩
      have hqc : q.1 ≠ c.name := habs' q.1 hqk
      have hget : dictGet (dictOf Node.name (Node.mk nm u lp (l₁ ++ c :: l₂) fs).children) q.1
          = dictGet (dictOf Node.name (Node.mk nm u lp (l₁ ++ c' :: l₂) fs).children) q.1 := by
        show dictGet (dictOf Node.name (l₁ ++ c :: l₂)) q.1
          = dictGet (dictOf Node.name (l₁ ++ c' :: l₂)) q.1
        rw [dictGet_dictOf_nodup _ _ _ hnd, dictGet_dictOf_nodup _ _ _ hnd']
        apply find?_replace_mid
        · simp only [decide_eq_false_iff_not]
          intro hcq
          exact hqc hcq.symm
        · simp only [decide_eq_false_iff_not]
          intro hcq
          rw [← hcc] at hcq
          exact hqc hcq.symm
      rw [hget]
    rw [hseg1, hseg2]
    rfl
  · rw [diff_trees_some]
    decide

/-- Witness for C7: parts (i) applied to the concrete scenario. -/
theorem claim_C7_deleted_dir_convention_witness :
    (diffDeletedDirs oldC7 newC7).count
        ("Deleted directory: " ++ pathJoin newC7.local_path
          (Node.mk "Old" "ou" "store/Old" [] [⟨"fu", "f", some "h", none⟩]).name) = 1
      ∧ ("Deleted directory: " ++ pathJoin newC7.local_path
          (Node.mk "Old" "ou" "store/Old" [] [⟨"fu", "f", some "h", none⟩]).name)
          ∈ diff_trees (some oldC7) newC7 :=
  claim_C7_deleted_dir_convention.1 oldC7 newC7
    (Node.mk "Old" "ou" "store/Old" [] [⟨"fu", "f", some "h", none⟩])
    (by decide) (by decide) (List.mem_singleton.mpr rfl) (by decide)

theorem dictGet_dictInsert {α : Type} (d : List (String × α)) (k' k : String) (v : α) :
    dictGet (dictInsert d k' v) k = if k' = k then some v else dictGet d k := by
  unfold dictInsert dictGet
  split
  · rename_i hcont
    rw [List.find?_map]
    have hpf : ((fun p => decide ((p : String × α).1 = k)) ∘
        (fun p => if p.1 = k' then (k', v) else p)) = (fun p => decide (p.1 = k)) := by
      funext p
      by_cases hp : p.1 = k' <;> simp [hp]
    rw [hpf]
    by_cases hk : k' = k
    · subst hk
      have hsome : (d.find? (fun p => p.1 = k')).isSome = true := by
        rw [List.find?_isSome]
        rcases List.any_eq_true.mp hcont with ⟨q, hq, hq'⟩
        exact ⟨q, hq, hq'⟩
      cases hfq : d.find? (fun p => p.1 = k') with
      | none => rw [hfq] at hsome; exact Bool.noConfusion hsome
      | some q =>
        have hq1 : q.1 = k' := by simpa using List.find?_some hfq
        simp [hq1]
    · rw [if_neg hk]
      cases hfq : d.find? (fun p => p.1 = k) with
      | none => simp
      | some q =>
        have hq1 : q.1 = k := by simpa using List.find?_some hfq
        have hq2 : ¬ q.1 = k' := by rw [hq1]; exact fun h => hk h.symm
        simp [hq2]
  · rename_i hcont
    rw [List.find?_append]
    by_cases hk : k' = k
    · subst hk
      have hnone : d.find? (fun p => (p : String × α).1 = k') = none := by
        rw [List.find?_eq_none]
        intro x hx hpx
        exact hcont (List.any_eq_true.mpr ⟨x, hx, hpx⟩)
      rw [hnone]
      simp [List.find?_cons]
    · rw [if_neg hk]
      have h2 : ([((k', v) : String × α)].find? (fun p => p.1 = k)) = none := by
        rw [List.find?_eq_none]
        intro x hx
        simp at hx
        simp [hx, hk]
      rw [h2]
      cases d.find? (fun p => (p : String × α).1 = k) <;> rfl

theorem dictGet_dictOf_append {α : Type} (key : α → String) (l : List α) (a : α) (k : String) :
    dictGet (dictOf key (l ++ [a])) k
      = if key a = k then some a else dictGet (dictOf key l) k := by
  unfold dictOf
  rw [List.foldl_append]
  simp only [List.foldl_cons, List.foldl_nil]
  exact dictGet_dictInsert _ _ _ _

/-- Duplicate-name scenario: first prior child named `X`, hash `h1`. -/
def X1node : Node := .mk "X" "xu1" "store/X" [] [⟨"fu", "f", some "h1", none⟩]

/-- Duplicate-name scenario: second prior child also named `X`, hash `h2`. -/
def X2node : Node := .mk "X" "xu2" "store/X" [] [⟨"fu", "f", some "h2", none⟩]

/-- Duplicate-name scenario: the new child named `X`, identical to `X1node`
in contents. -/
def newXnode : Node := .mk "X" "xu1" "store/X" [] [⟨"fu", "f", some "h1", none⟩]

/-- Duplicate-name scenario: prior root with two children both named `X`. -/
def dupXold : Node := .mk "course" "cu" "store" [X1node, X2node] []

/-- Duplicate-name scenario: new root with one child named `X`. -/
def dupXnew : Node := .mk "course" "cu" "store" [newXnode] []

/-- Counterexample to C9 as stated ("first match wins"): with two prior
children both named `X`, the name-keyed lookup used by build and diff
returns the *second* (last) child, which differs from the first; diffing
against a new child identical to the first one therefore reports a
modification (first-match semantics would have reported none, as diffing
against the first child alone shows). -/
theorem claim_C9_counterexample :
    dictGet (dictOf Node.name [X1node, X2node]) "X" = some X2node
      ∧ X2node ≠ X1node
      ∧ diff_trees (some dupXold) dupXnew = ["Modified file: store/X/f"]
      ∧ diff_trees (some (Node.mk "course" "cu" "store" [X1node] [])) dupXnew = [] := by
  refine ⟨rfl, fun h => absurd (congrArg Node.url h) (by decide), ?_, ?_⟩
  · have h1 : diff_trees (some X2node) newXnode = ["Modified file: store/X/f"] := by
      rw [diff_trees_some]
      decide
    rw [diff_trees_some]
    change diffDeletedDirs dupXold dupXnew
        ++ ([diff_trees (some X2node) newXnode]).flatten
        ++ diffDeletedFiles dupXold dupXnew ++ diffFileChanges dupXold dupXnew = _
    rw [h1]
    decide
  · have h1 : diff_trees (some X1node) newXnode = [] := by
      rw [diff_trees_some]
      decide
    rw [diff_trees_some]
    change diffDeletedDirs (Node.mk "course" "cu" "store" [X1node] []) dupXnew
        ++ ([diff_trees (some X1node) newXnode]).flatten
        ++ diffDeletedFiles (Node.mk "course" "cu" "store" [X1node] []) dupXnew
        ++ diffFileChanges (Node.mk "course" "cu" "store" [X1node] []) dupXnew = _
    rw [h1]
    decide

/-- C9 (amended): the name/url-keyed maps built by `build_tree` and
`diff_trees` treat keys as unique, with the *last* match winning when a key
is duplicated: appending an entry overrides all earlier entries with the
same key, and on the duplicate-`X` scenario the lookup yields the second
child, so the diff reflects the last duplicate's contents. -/
theorem claim_C9_last_match_wins :
    (∀ (α : Type) (key : α → String) (l : List α) (a : α) (k : String),
      dictGet (dictOf key (l ++ [a])) k
        = if key a = k then some a else dictGet (dictOf key l) k)
    ∧ dictGet (dictOf Node.name [X1node, X2node]) "X" = some X2node
    ∧ dictGet (dictOf File.url [⟨"fu", "f", some "h1", none⟩, ⟨"fu", "g", some "h2", none⟩])
        "fu" = some ⟨"fu", "g", some "h2", none⟩ :=
  ⟨fun _ => dictGet_dictOf_append, rfl, rfl⟩

/-! ## Relative display names and path prefixes -/

mutual
/-- All display names in the tree (file names and child directory names,
recursively) are relative path components: none starts with `/`. -/
def relNames : Node → Prop
  | .mk _ _ _ children files =>
    (∀ f ∈ files, strStartsWith f.name "/" = false)
      ∧ (∀ c ∈ children, strStartsWith c.name "/" = false)
      ∧ relNamesList children

/-- All members of a list of nodes have relative names. -/
def relNamesList : List Node → Prop
  | [] => True
  | c :: rest => relNames c ∧ relNamesList rest
end

theorem relNames_iff (n : Node) :
    relNames n ↔ (∀ f ∈ n.files, strStartsWith f.name "/" = false)
      ∧ (∀ c ∈ n.children, strStartsWith c.name "/" = false)
      ∧ relNamesList n.children := by
  cases n
  exact Iff.rfl

theorem relNamesList_mem : ∀ {l : List Node}, relNamesList l →
    ∀ {c : Node}, c ∈ l → relNames c := by
  intro l
  induction l with
  | nil => intro _ c hc; cases hc
  | cons a rest ih =>
    intro h c hc
    rcases List.mem_cons.mp hc with h' | h'
    · exact h' ▸ h.1
    · exact ih h.2 h'

theorem pathJoin_prefix {b : String} (a : String) (hb : strStartsWith b "/" = false) :
    ∃ r, pathJoin a b = a ++ r := by
  unfold pathJoin
  rw [hb]
  simp only [Bool.false_eq_true, if_false]
  by_cases ha : a = ""
  · refine ⟨b, ?_⟩
    rw [if_pos ha, ha]
    exact (String.empty_append b).symm
  · rw [if_neg ha]
    by_cases hend : strEndsWith a "/" = true
    · rw [if_pos hend]
      exact ⟨b, rfl⟩
    · rw [if_neg hend]
      exact ⟨"/" ++ b, String.append_assoc a "/" b⟩

theorem reportAllAdded_prefix (n : Node) (base : String)
    (hrel : relNames n) (hname : strStartsWith n.name "/" = false) :
    ∀ s ∈ reportAllAdded n base,
      (∃ r, s = "Added file: " ++ (base ++ r))
        ∨ (∃ r, s = "Added directory: " ++ (base ++ r)) := by
  intro s hs
  obtain ⟨hfiles, hchildnames, hchildren⟩ := (relNames_iff n).mp hrel
  obtain ⟨r₀, hr₀⟩ := pathJoin_prefix base hname
  rw [reportAllAdded_unfold] at hs
  rcases List.mem_cons.mp hs with h | h
  · right
    exact ⟨r₀, by rw [h, hr₀]⟩
  · rcases List.mem_append.mp h with h | h
    · left
      rcases List.mem_map.mp h with ⟨f, hf, he⟩
      obtain ⟨r₁, hr₁⟩ := pathJoin_prefix (pathJoin base n.name) (hfiles f hf)
      refine ⟨r₀ ++ r₁, ?_⟩
      rw [← he, hr₁, hr₀, String.append_assoc]
    · rcases List.mem_flatten.mp h with ⟨xs, hxs, hsx⟩
      rcases List.mem_map.mp hxs with ⟨c, hc, he⟩
      have hrc := reportAllAdded_prefix c (pathJoin base n.name)
        (relNamesList_mem hchildren hc) (hchildnames c hc) s (he ▸ hsx)
      rcases hrc with ⟨r, hr⟩ | ⟨r, hr⟩
      · left
        exact ⟨r₀ ++ r, by rw [hr, hr₀, String.append_assoc]⟩
      · right
        exact ⟨r₀ ++ r, by rw [hr, hr₀, String.append_assoc]⟩
termination_by sizeOf n
decreasing_by
  have ha := List.sizeOf_lt_of_mem hc
  have hb := sizeOf_children_lt n
  omega

/-- The prefix-divergence scenario: a new tree whose `name` (`root`) and
`local_path` (`store`) differ. -/
def c10T : Node := .mk "root" "u" "store" [] [⟨"fu", "f", some "h", none⟩]

/-- The prefix-divergence scenario: a prior tree with the same root data and
no contents. -/
def c10P : Node := .mk "root" "u" "store" [] []

/-- C10: Base-case path prefix.  With no prior tree, every record's path is
prefixed with the root's display name (`name`); with a prior tree present
(data-model uniqueness invariants, and disjoint child-name sets so that no
recursion into a matched child occurs), every path emitted is prefixed with
the new root's local storage path; the same new tree hence yields
differently prefixed output in the two cases whenever `name` and
`local_path` differ, as the concrete scenario shows. -/
theorem claim_C10_path_prefixes :
    (∀ T : Node, relNames T → ∀ s ∈ diff_trees none T,
      (∃ r, s = "Added file: " ++ (T.name ++ r))
        ∨ (∃ r, s = "Added directory: " ++ (T.name ++ r)))
    ∧ (∀ previous latest : Node,
        relNames previous → relNames latest →
        (previous.children.map Node.name).Nodup →
        (latest.children.map Node.name).Nodup →
        (previous.files.map File.url).Nodup →
        (latest.files.map File.url).Nodup →
        (∀ d ∈ latest.children, previous.children.any (fun c => c.name = d.name) = false) →
        ∀ s ∈ diff_trees (some previous) latest, ∃ r,
          s = "Deleted directory: " ++ (latest.local_path ++ r)
            ∨ s = "Added directory: " ++ (latest.local_path ++ r)
            ∨ s = "Added file: " ++ (latest.local_path ++ r)
            ∨ s = "Deleted file: " ++ (latest.local_path ++ r)
            ∨ s = "Modified file: " ++ (latest.local_path ++ r))
    ∧ diff_trees none c10T = ["Added file: root/f"]
    ∧ diff_trees (some c10P) c10T = ["Added file: store/f"] := by
  refine ⟨?_, ?_, ?_, ?_⟩
  · intro T hrel s hs
    obtain ⟨hfiles, hchildnames, hchildren⟩ := (relNames_iff T).mp hrel
    rw [diff_trees_none] at hs
    rcases List.mem_append.mp hs with h | h
    · left
      rcases List.mem_map.mp h with ⟨f, hf, he⟩
      obtain ⟨r, hr⟩ := pathJoin_prefix T.name (hfiles f hf)
      exact ⟨r, by rw [← he, hr]⟩
    · rw [reportAllAddedList_eq_flatten] at h
      rcases List.mem_flatten.mp h with ⟨xs, hxs, hsx⟩
      rcases List.mem_map.mp hxs with ⟨c, hc, he⟩
      exact reportAllAdded_prefix c T.name (relNamesList_mem hchildren hc)
        (hchildnames c hc) s (he ▸ hsx)
  · intro previous latest hrp hrl hpc hlc hpf hlf hdisj s hs
    obtain ⟨hpfiles, hpchildnames, _⟩ := (relNames_iff previous).mp hrp
    obtain ⟨hlfiles, hlchildnames, hlchildren⟩ := (relNames_iff latest).mp hrl
    rw [diff_trees_some_nodup previous latest hpc hlc,
      diffDeletedDirs_eq previous latest hpc,
      diffDeletedFiles_eq previous latest hpf,
      diffFileChanges_eq previous latest hpf hlf] at hs
    rcases List.mem_append.mp hs with hs | hs
    · rcases List.mem_append.mp hs with hs | hs
      · rcases List.mem_append.mp hs with hs | hs
        · rcases List.mem_filterMap.mp hs with ⟨c, hc, he⟩
          split at he
          · exact Option.noConfusion he
          · obtain ⟨r, hr⟩ := pathJoin_prefix latest.local_path (hpchildnames c hc)
            exact ⟨r, Or.inl (by rw [← Option.some.inj he, hr])⟩
        · rcases List.mem_flatten.mp hs with ⟨xs, hxs, hsx⟩
          rcases List.mem_map.mp hxs with ⟨d, hd, he⟩
          have hfind : previous.children.find? (fun c => c.name = d.name) = none := by
            rw [List.find?_eq_none]
            intro c hcm
            simp only [decide_eq_true_eq]
            intro heq
            have hany : previous.children.any (fun c => c.name = d.name) = true := by
              apply List.any_eq_true.mpr
              exact ⟨c, hcm, by show decide (c.name = d.name) = true; exact decide_eq_true heq⟩
            rw [hdisj d hd] at hany
            exact Bool.noConfusion hany
          split at he
          · have hsx' : s ∈ reportAllAdded d latest.local_path := by
              rw [← he] at hsx
              exact hsx
            have hpr := reportAllAdded_prefix d latest.local_path
              (relNamesList_mem hlchildren hd) (hlchildnames d hd) s hsx'
            rcases hpr with ⟨r, hr⟩ | ⟨r, hr⟩
            · exact ⟨r, Or.inr (Or.inr (Or.inl hr))⟩
            · exact ⟨r, Or.inr (Or.inl hr)⟩
          · rename_i o hfo
            rw [hfind] at hfo
            exact Option.noConfusion hfo
      · rcases List.mem_filterMap.mp hs with ⟨f, hf, he⟩
        split at he
        · exact Option.noConfusion he
        · obtain ⟨r, hr⟩ := pathJoin_prefix latest.local_path (hpfiles f hf)
          exact ⟨r, Or.inr (Or.inr (Or.inr (Or.inl (by rw [← Option.some.inj he, hr]))))⟩
    · rcases List.mem_filterMap.mp hs with ⟨f, hf, he⟩
      obtain ⟨r, hr⟩ := pathJoin_prefix latest.local_path (hlfiles f hf)
      split at he
      · exact ⟨r, Or.inr (Or.inr (Or.inl (by rw [← Option.some.inj he, hr])))⟩
      · split at he
        · exact ⟨r, Or.inr (Or.inr (Or.inr (Or.inr (by rw [← Option.some.inj he, hr]))))⟩
        · exact Option.noConfusion he
  · rw [diff_trees_none]
    decide
  · rw [diff_trees_some]
    decide

/-- Witness for C10: the base-case prefix statement applied to the concrete
scenario tree and its single record. -/
theorem claim_C10_path_prefixes_witness :
    (∃ r, "Added file: root/f" = "Added file: " ++ (c10T.name ++ r))
      ∨ (∃ r, "Added file: root/f" = "Added directory: " ++ (c10T.name ++ r)) :=
  claim_C10_path_prefixes.1 c10T ⟨by decide, by decide, trivial⟩
    "Added file: root/f" (by rw [diff_trees_none]; decide)

/-! ## Builder equations and claims -/

theorem build_tree_zero (s : Scraper) (url lp nm : String) (old : Option Node) :
    build_tree s 0 url lp nm old = .error "maximum recursion depth exceeded" := rfl

theorem build_tree_succ (s : Scraper) (fuel : Nat) (url lp nm : String) (old : Option Node) :
    build_tree s (fuel + 1) url lp nm old =
      match s.get_links url with
      | .error e => .error e
      | .ok (file_urls, dir_urls, file_names, dir_names) =>
        match build_files s lp (dictOf File.url (oldFiles old))
            (file_urls.zip file_names) with
        | .error e => .error e
        | .ok (files, fileDownloads) =>
          match build_children (build_tree s fuel) lp (dictOf Node.name (oldChildren old))
              (dir_urls.zip dir_names) with
          | .error e => .error e
          | .ok (children, childDownloads) =>
            .ok (Node.mk nm url lp children files, fileDownloads + childDownloads) := rfl

theorem build_tree_succ_full (s : Scraper) (fuel : Nat) (url lp nm : String)
    (old : Option Node) (fus dus fns dns : List String) (files : List File)
    (fd : Nat) (children : List Node) (cd : Nat)
    (hgl : s.get_links url = .ok (fus, dus, fns, dns))
    (hbf : build_files s lp (dictOf File.url (oldFiles old)) (fus.zip fns)
      = .ok (files, fd))
    (hbc : build_children (build_tree s fuel) lp (dictOf Node.name (oldChildren old))
      (dus.zip dns) = .ok (children, cd)) :
    build_tree s (fuel + 1) url lp nm old
      = .ok (Node.mk nm url lp children files, fd + cd) := by
  simp only [build_tree_succ, hgl, hbf, hbc]

theorem build_tree_ok_inv (s : Scraper) (fuel : Nat) (url lp nm : String)
    (old : Option Node) (t : Node) (c : Nat)
    (h : build_tree s (fuel + 1) url lp nm old = .ok (t, c)) :
    ∃ fus dus fns dns files fd children cd,
      s.get_links url = .ok (fus, dus, fns, dns)
        ∧ build_files s lp (dictOf File.url (oldFiles old)) (fus.zip fns)
            = .ok (files, fd)
        ∧ build_children (build_tree s fuel) lp (dictOf Node.name (oldChildren old))
            (dus.zip dns) = .ok (children, cd)
        ∧ t = Node.mk nm url lp children files ∧ c = fd + cd := by
  rw [build_tree_succ] at h
  split at h
  · exact Except.noConfusion h
  · rename_i r fus dus fns dns hgl
    split at h
    · exact Except.noConfusion h
    · rename_i r2 files fd hbf
      split at h
      · exact Except.noConfusion h
      · rename_i r3 children cd hbc
        have h2 := Except.ok.inj h
        refine ⟨fus, dus, fns, dns, files, fd, children, cd, hgl, hbf, hbc, ?_, ?_⟩
        · exact (congrArg Prod.fst h2).symm
        · exact (congrArg Prod.snd h2).symm

theorem download_and_hash_ok (s : Scraper) (u lp : String) (etag : Option String)
    (n : String) (f : File) (c : Nat)
    (h : download_and_hash s u lp etag n = .ok (f, c)) :
    c = 1 ∧ f.url = u ∧ f.name = n ∧ f.etag = etag
      ∧ ∃ p, s.download_file u lp = .ok p
          ∧ (p ≠ "" → ∃ hsh, s.compute_md5 p = .ok hsh ∧ f.md5_hash = some hsh) := by
  unfold download_and_hash at h
  split at h
  · exact Except.noConfusion h
  · rename_i p hdl
    split at h
    · rename_i hp
      split at h
      · exact Except.noConfusion h
      · rename_i hsh hmd
        have h2 := Except.ok.inj h
        have hf : f = ⟨u, n, some hsh, etag⟩ := (congrArg Prod.fst h2).symm
        have hc : c = 1 := (congrArg Prod.snd h2).symm
        subst hf
        exact ⟨hc, rfl, rfl, rfl, p, hdl, fun _ => ⟨hsh, hmd, rfl⟩⟩
    · rename_i hp
      have h2 := Except.ok.inj h
      have hf : f = ⟨u, n, none, etag⟩ := (congrArg Prod.fst h2).symm
      have hc : c = 1 := (congrArg Prod.snd h2).symm
      subst hf
      exact ⟨hc, rfl, rfl, rfl, p, hdl, fun hne => absurd (by simpa using hp) (by simp [hne])⟩

theorem process_file_google (s : Scraper) (lp : String) (ofm : List (String × File))
    (u n : String) (hg : strContains u "google" = true) :
    process_file s lp ofm u n = download_and_hash s u lp none n := by
  unfold process_file
  rw [if_pos hg]

theorem process_file_nongoogle_none (s : Scraper) (lp : String)
    (ofm : List (String × File)) (u n : String)
    (hg : strContains u "google" = false) (ho : dictGet ofm u = none) :
    process_file s lp ofm u n = download_and_hash s u lp (s.fetch_etag u) n := by
  unfold process_file
  rw [if_neg (by simp [hg])]
  simp only [ho]

theorem process_file_nongoogle_changed (s : Scraper) (lp : String)
    (ofm : List (String × File)) (u n : String) (of : File)
    (hg : strContains u "google" = false) (ho : dictGet ofm u = some of)
    (hcond : ¬ truthy (s.fetch_etag u) = true ∨ of.etag ≠ s.fetch_etag u) :
    process_file s lp ofm u n = download_and_hash s u lp (s.fetch_etag u) n := by
  unfold process_file
  rw [if_neg (by simp [hg])]
  simp only [ho]
  rw [if_pos]
  rcases hcond with h | h
  · exact Or.inl (by simpa using h)
  · exact Or.inr h

theorem process_file_reuse (s : Scraper) (lp : String)
    (ofm : List (String × File)) (u n : String) (of : File)
    (hg : strContains u "google" = false) (ho : dictGet ofm u = some of)
    (ht : truthy (s.fetch_etag u) = true) (he : of.etag = s.fetch_etag u) :
    process_file s lp ofm u n = .ok (⟨u, n, of.md5_hash, of.etag⟩, 0) := by
  unfold process_file
  rw [if_neg (by simp [hg])]
  simp only [ho]
  rw [if_neg]
  intro hcond
  rcases hcond with h | h
  · simp [ht] at h
  · exact h he

theorem build_files_spec (s : Scraper) (lp : String) (ofm : List (String × File)) :
    ∀ (l : List (String × String)) (fs : List File) (c : Nat),
      build_files s lp ofm l = .ok (fs, c) →
      fs.length = l.length
        ∧ ∀ i (hi : i < fs.length) (hl : i < l.length), ∃ k,
            process_file s lp ofm (l.get ⟨i, hl⟩).1 (l.get ⟨i, hl⟩).2
              = .ok (fs.get ⟨i, hi⟩, k) := by
  intro l
  induction l with
  | nil =>
    intro fs c h
    unfold build_files at h
    have h2 := Except.ok.inj h
    have hf : fs = [] := (congrArg Prod.fst h2).symm
    subst hf
    exact ⟨rfl, fun i hi hl => absurd hl (by simp)⟩
  | cons pr rest ih =>
    intro fs c h
    obtain ⟨u, n⟩ := pr
    unfold build_files at h
    split at h
    · exact Except.noConfusion h
    · rename_i r f k hpf
      split at h
      · exact Except.noConfusion h
      · rename_i r2 fs' cs hbf
        have h2 := Except.ok.inj h
        have hf : fs = f :: fs' := (congrArg Prod.fst h2).symm
        subst hf
        obtain ⟨hlen, hptw⟩ := ih fs' cs hbf
        refine ⟨by simpa using hlen, ?_⟩
        intro i hi hl
        cases i with
        | zero => exact ⟨k, hpf⟩
        | succ j =>
          exact hptw j (Nat.lt_of_succ_lt_succ hi) (Nat.lt_of_succ_lt_succ hl)

/-- C1: Per-file reconciliation in build.  (i) A foreign-hosted drive link
(`"google" in url`) is always downloaded (one `download_file` call), its
`contentHash` (`md5_hash`) recomputed from the downloaded bytes, and its
`changeToken` (`etag`) left unset.  (ii) Otherwise a validator is probed,
and the file is downloaded and hashed exactly when there is no prior file
at the same location, or no (truthy) token was returned, or the token
differs from the prior file's; the probed token is stored.  (iii) When the
token is present and unchanged, the prior file's hash and token are reused
verbatim with zero downloads.  (iv) The resulting `File` entries are
appended in original link order: the i-th entry of the built node is the
reconciliation of the i-th `(url, name)` link pair. -/
theorem claim_C1_file_reconciliation (s : Scraper) (lp : String)
    (ofm : List (String × File)) (u n : String) :
    (strContains u "google" = true →
      ∀ f c, process_file s lp ofm u n = .ok (f, c) →
        c = 1 ∧ f.url = u ∧ f.name = n ∧ f.etag = none
          ∧ ∃ p, s.download_file u lp = .ok p
              ∧ (p ≠ "" → ∃ hsh, s.compute_md5 p = .ok hsh ∧ f.md5_hash = some hsh))
    ∧ (strContains u "google" = false →
      (dictGet ofm u = none ∨ truthy (s.fetch_etag u) = false
        ∨ (∃ of, dictGet ofm u = some of ∧ of.etag ≠ s.fetch_etag u)) →
      ∀ f c, process_file s lp ofm u n = .ok (f, c) →
        c = 1 ∧ f.url = u ∧ f.name = n ∧ f.etag = s.fetch_etag u
          ∧ ∃ p, s.download_file u lp = .ok p
              ∧ (p ≠ "" → ∃ hsh, s.compute_md5 p = .ok hsh ∧ f.md5_hash = some hsh))
    ∧ (strContains u "google" = false →
      ∀ of, dictGet ofm u = some of → truthy (s.fetch_etag u) = true →
        of.etag = s.fetch_etag u →
        process_file s lp ofm u n = .ok (⟨u, n, of.md5_hash, of.etag⟩, 0))
    ∧ (∀ (fuel : Nat) (url nm : String) (old : Option Node) (t : Node) (c : Nat)
        (fus dus fns dns : List String),
      s.get_links url = .ok (fus, dus, fns, dns) →
      build_tree s (fuel + 1) url lp nm old = .ok (t, c) →
      t.files.length = (fus.zip fns).length
        ∧ ∀ i (hi : i < t.files.length) (hl : i < (fus.zip fns).length), ∃ k,
            process_file s lp (dictOf File.url (oldFiles old))
              ((fus.zip fns).get ⟨i, hl⟩).1 ((fus.zip fns).get ⟨i, hl⟩).2
              = .ok (t.files.get ⟨i, hi⟩, k)) := by
  refine ⟨?_, ?_, ?_, ?_⟩
  · intro hg f c h
    rw [process_file_google s lp ofm u n hg] at h
    obtain ⟨hc, hurl, hn, he, p, hp⟩ := download_and_hash_ok s u lp none n f c h
    exact ⟨hc, hurl, hn, he, p, hp⟩
  · intro hg hcond f c h
    have hdl : process_file s lp ofm u n = download_and_hash s u lp (s.fetch_etag u) n := by
      rcases hcond with hnone | htok | ⟨of, hof, hne⟩
      · exact process_file_nongoogle_none s lp ofm u n hg hnone
      · cases hofm : dictGet ofm u with
        | none => exact process_file_nongoogle_none s lp ofm u n hg hofm
        | some of =>
          exact process_file_nongoogle_changed s lp ofm u n of hg hofm
            (Or.inl (by simp [htok]))
      · exact process_file_nongoogle_changed s lp ofm u n of hg hof (Or.inr hne)
    rw [hdl] at h
    obtain ⟨hc, hurl, hn, he, p, hp⟩ := download_and_hash_ok s u lp (s.fetch_etag u) n f c h
    exact ⟨hc, hurl, hn, he, p, hp⟩
  · intro hg of hof ht he
    exact process_file_reuse s lp ofm u n of hg hof ht he
  · intro fuel url nm old t c fus dus fns dns hgl hbt
    obtain ⟨fus', dus', fns', dns', files, fd, children, cd, hgl', hbf, hbc, ht, hc⟩ :=
      build_tree_ok_inv s fuel url lp nm old t c hbt
    rw [hgl] at hgl'
    have htup := Except.ok.inj hgl'
    have h1 : fus = fus' := congrArg (fun r => r.1) htup
    have h2 : fns = fns' := congrArg (fun r => r.2.2.1) htup
    subst h1
    subst h2
    have hfiles : t.files = files := by rw [ht]; rfl
    rw [hfiles]
    exact build_files_spec s lp (dictOf File.url (oldFiles old)) (fus.zip fns) files fd hbf

/-- A scraper serving one standard file with a stable validator. -/
def reuseScraper : Scraper :=
  { get_links := fun _ => .ok (["https://site/a.pdf"], [], ["a.pdf"], [])
    fetch_etag := fun _ => some "E1"
    download_file := fun _ _ => .ok "store/a.pdf"
    compute_md5 := fun _ => .ok "H1" }

/-- Witness for C1: the reuse path at a concrete prior file — token present
and unchanged, so the prior hash and token are kept verbatim with zero
downloads. -/
theorem claim_C1_file_reconciliation_witness :
    process_file reuseScraper "store"
      [("https://site/a.pdf", ⟨"https://site/a.pdf", "a.pdf", some "H0", some "E1"⟩)]
      "https://site/a.pdf" "a.pdf"
      = .ok (⟨"https://site/a.pdf", "a.pdf", some "H0", some "E1"⟩, 0) :=
  (claim_C1_file_reconciliation reuseScraper "store"
      [("https://site/a.pdf", ⟨"https://site/a.pdf", "a.pdf", some "H0", some "E1"⟩)]
      "https://site/a.pdf" "a.pdf").2.2.1
    (by decide) ⟨"https://site/a.pdf", "a.pdf", some "H0", some "E1"⟩ rfl rfl rfl

/-! ## Idempotence of reconciliation -/

theorem process_file_ok_fields (s : Scraper) (lp : String)
    (ofm : List (String × File)) (u n : String) (f : File) (k : Nat)
    (h : process_file s lp ofm u n = .ok (f, k)) :
    f.url = u ∧ f.name = n
      ∧ (strContains u "google" = false → f.etag = s.fetch_etag u) := by
  unfold process_file at h
  split at h
  · rename_i hg
    obtain ⟨_, hurl, hn, _, _⟩ := download_and_hash_ok s u lp none n f k h
    exact ⟨hurl, hn, fun hg' => absurd hg (by simp [hg'])⟩
  · rename_i hg
    simp only at h
    split at h
    · obtain ⟨_, hurl, hn, he, _⟩ := download_and_hash_ok s u lp (s.fetch_etag u) n f k h
      exact ⟨hurl, hn, fun _ => he⟩
    · rename_i of hof
      split at h
      · obtain ⟨_, hurl, hn, he, _⟩ := download_and_hash_ok s u lp (s.fetch_etag u) n f k h
        exact ⟨hurl, hn, fun _ => he⟩
      · rename_i hcond
        have h2 := Except.ok.inj h
        have hf : f = ⟨u, n, of.md5_hash, of.etag⟩ := (congrArg Prod.fst h2).symm
        subst hf
        refine ⟨rfl, rfl, fun _ => ?_⟩
        show of.etag = s.fetch_etag u
        by_contra hne
        exact hcond (Or.inr hne)

theorem listForall₂_and {α β : Type} {P Q : α → β → Prop} :
    ∀ {l : List α} {fs : List β}, List.Forall₂ P l fs → List.Forall₂ Q l fs →
      List.Forall₂ (fun a b => P a b ∧ Q a b) l fs := by
  intro l
  induction l with
  | nil =>
    intro fs hp _
    cases hp
    exact List.Forall₂.nil
  | cons a rest ih =>
    intro fs hp hq
    cases hp with
    | cons hp1 hp2 =>
      cases hq with
      | cons hq1 hq2 => exact List.Forall₂.cons ⟨hp1, hq1⟩ (ih hp2 hq2)

theorem forall₂_map_eq {α β : Type} (key : β → String) (sel : α → String) :
    ∀ {l : List α} {fs : List β}, List.Forall₂ (fun a b => key b = sel a) l fs →
      fs.map key = l.map sel := by
  intro l
  induction l with
  | nil =>
    intro fs h
    cases h
    rfl
  | cons a rest ih =>
    intro fs h
    cases h with
    | cons h1 h2 => simp [ih h2, h1]

theorem find?_key_self {α : Type} (key : α → String) {l : List α} {a : α}
    (hnd : (l.map key).Nodup) (ha : a ∈ l) :
    l.find? (fun x => key x = key a) = some a := by
  induction l with
  | nil => cases ha
  | cons b rest ih =>
    simp only [List.map_cons, List.nodup_cons] at hnd
    rw [List.find?_cons]
    rcases List.mem_cons.mp ha with h | h
    · subst h
      simp
    · have hne : key b ≠ key a := by
        intro hcontra
        apply hnd.1
        rw [hcontra]
        exact List.mem_map_of_mem key h
      have hd : (decide (key b = key a)) = false := by simp [hne]
      rw [hd]
      exact ih hnd.2 h

theorem forall₂_dictGet {α β : Type} (key : α → String) (full : List α)
    (hnd : (full.map key).Nodup) (sel : β → String) :
    ∀ {l : List β} {fs : List α},
      (∀ f ∈ fs, f ∈ full) → List.Forall₂ (fun pr f => key f = sel pr) l fs →
      List.Forall₂ (fun pr f => dictGet (dictOf key full) (sel pr) = some f) l fs := by
  intro l
  induction l with
  | nil =>
    intro fs _ h
    cases h
    exact List.Forall₂.nil
  | cons a rest ih =>
    intro fs hsub h
    cases h with
    | cons h1 h2 =>
      rename_i f fs'
      refine List.Forall₂.cons ?_ (ih (fun g hg => hsub g (List.mem_cons_of_mem f hg)) h2)
      rw [dictGet_dictOf_nodup _ _ _ hnd, ← h1]
      exact find?_key_self key hnd (hsub f (List.mem_cons_self f fs'))

theorem build_files_rel (s : Scraper) (lp : String) (ofm : List (String × File)) :
    ∀ (l : List (String × String)) (fs : List File) (c : Nat),
      build_files s lp ofm l = .ok (fs, c) →
      List.Forall₂ (fun pr f => (f : File).url = pr.1 ∧ f.name = (pr : String × String).2
        ∧ (strContains pr.1 "google" = false → f.etag = s.fetch_etag pr.1)) l fs := by
  intro l
  induction l with
  | nil =>
    intro fs c h
    unfold build_files at h
    have h2 := Except.ok.inj h
    have hf : fs = [] := (congrArg Prod.fst h2).symm
    subst hf
    exact List.Forall₂.nil
  | cons pr rest ih =>
    intro fs c h
    obtain ⟨u, n⟩ := pr
    unfold build_files at h
    split at h
    · exact Except.noConfusion h
    · rename_i r f k hpf
      split at h
      · exact Except.noConfusion h
      · rename_i r2 fs' cs hbf
        have h2 := Except.ok.inj h
        have hf : fs = f :: fs' := (congrArg Prod.fst h2).symm
        subst hf
        exact List.Forall₂.cons (process_file_ok_fields s lp ofm u n f k hpf) (ih fs' cs hbf)

theorem build_files_idem (s : Scraper) (lp : String) :
    ∀ (l : List (String × String)) (fs : List File) (c : Nat)
      (ofm₀ ofm' : List (String × File)),
      build_files s lp ofm₀ l = .ok (fs, c) →
      (∀ p ∈ l, strContains (p : String × String).1 "google" = false) →
      (∀ p ∈ l, truthy (s.fetch_etag (p : String × String).1) = true) →
      List.Forall₂ (fun pr f => dictGet ofm' (pr : String × String).1 = some f) l fs →
      build_files s lp ofm' l = .ok (fs, 0) := by
  intro l
  induction l with
  | nil =>
    intro fs c ofm₀ ofm' h _ _ _
    unfold build_files at h ⊢
    have h2 := Except.ok.inj h
    have hf : fs = [] := (congrArg Prod.fst h2).symm
    subst hf
    rfl
  | cons pr rest ih =>
    intro fs c ofm₀ ofm' h hng ht hrel
    obtain ⟨u, n⟩ := pr
    unfold build_files at h
    split at h
    · exact Except.noConfusion h
    · rename_i r f k hpf
      split at h
      · exact Except.noConfusion h
      · rename_i r2 fs' cs hbf
        have h2 := Except.ok.inj h
        have hf : fs = f :: fs' := (congrArg Prod.fst h2).symm
        subst hf
        cases hrel with
        | cons hget hrel2 =>
          have hng1 : strContains u "google" = false := hng (u, n) (List.mem_cons_self _ _)
          have ht1 : truthy (s.fetch_etag u) = true := ht (u, n) (List.mem_cons_self _ _)
          obtain ⟨hurl, hname, hetag⟩ := process_file_ok_fields s lp ofm₀ u n f k hpf
          have hreuse : process_file s lp ofm' u n = .ok (⟨u, n, f.md5_hash, f.etag⟩, 0) :=
            process_file_reuse s lp ofm' u n f hng1 hget ht1 (hetag hng1)
          have hfeq : (⟨u, n, f.md5_hash, f.etag⟩ : File) = f := by
            rw [← hurl, ← hname]
          have hrest := ih fs' cs ofm₀ ofm' hbf
            (fun p hp => hng p (List.mem_cons_of_mem _ hp))
            (fun p hp => ht p (List.mem_cons_of_mem _ hp)) hrel2
          unfold build_files
          rw [hreuse, hfeq, hrest]

theorem build_children_rel
    (step : String → String → String → Option Node → Except String (Node × Nat))
    (lp : String) (ocm : List (String × Node))
    (hstep : ∀ du p dn o t c, step du p dn o = .ok (t, c) → (t : Node).name = dn) :
    ∀ (l : List (String × String)) (cs : List Node) (k : Nat),
      build_children step lp ocm l = .ok (cs, k) →
      List.Forall₂ (fun pr ch => (ch : Node).name = (pr : String × String).2) l cs := by
  intro l
  induction l with
  | nil =>
    intro cs k h
    unfold build_children at h
    have h2 := Except.ok.inj h
    have hf : cs = [] := (congrArg Prod.fst h2).symm
    subst hf
    exact List.Forall₂.nil
  | cons pr rest ih =>
    intro cs k h
    obtain ⟨du, dn⟩ := pr
    unfold build_children at h
    split at h
    · exact Except.noConfusion h
    · rename_i r ch k1 hch
      split at h
      · exact Except.noConfusion h
      · rename_i r2 cs' ks hbc
        have h2 := Except.ok.inj h
        have hf : cs = ch :: cs' := (congrArg Prod.fst h2).symm
        subst hf
        exact List.Forall₂.cons (hstep du _ dn _ ch k1 hch) (ih cs' ks hbc)

theorem build_tree_name (s : Scraper) (fuel : Nat) (url lp nm : String)
    (old : Option Node) (t : Node) (c : Nat)
    (h : build_tree s fuel url lp nm old = .ok (t, c)) : t.name = nm := by
  cases fuel with
  | zero => rw [build_tree_zero] at h; exact Except.noConfusion h
  | succ fuel =>
    obtain ⟨_, _, _, _, _, _, _, _, _, _, _, ht, _⟩ :=
      build_tree_ok_inv s fuel url lp nm old t c h
    rw [ht]
    rfl

theorem build_children_idem (s : Scraper) (fuel : Nat) (lp : String)
    (ih : ∀ (url lp' nm : String) (old : Option Node) (t : Node) (c : Nat),
      build_tree s fuel url lp' nm old = .ok (t, c) →
      build_tree s fuel url lp' nm (some t) = .ok (t, 0)) :
    ∀ (l : List (String × String)) (cs : List Node) (k : Nat)
      (ocm₀ ocm' : List (String × Node)),
      build_children (build_tree s fuel) lp ocm₀ l = .ok (cs, k) →
      List.Forall₂ (fun pr ch => dictGet ocm' (pr : String × String).2 = some ch) l cs →
      build_children (build_tree s fuel) lp ocm' l = .ok (cs, 0) := by
  intro l
  induction l with
  | nil =>
    intro cs k ocm₀ ocm' h _
    unfold build_children at h ⊢
    have h2 := Except.ok.inj h
    have hf : cs = [] := (congrArg Prod.fst h2).symm
    subst hf
    rfl
  | cons pr rest ihl =>
    intro cs k ocm₀ ocm' h hrel
    obtain ⟨du, dn⟩ := pr
    unfold build_children at h
    split at h
    · exact Except.noConfusion h
    · rename_i r ch k1 hch
      split at h
      · exact Except.noConfusion h
      · rename_i r2 cs' ks hbc
        have h2 := Except.ok.inj h
        have hf : cs = ch :: cs' := (congrArg Prod.fst h2).symm
        subst hf
        cases hrel with
        | cons hget hrel2 =>
          have hsecond := ih du (pathJoin lp dn) dn (dictGet ocm₀ dn) ch k1 hch
          have hrest := ihl cs' ks ocm₀ ocm' hbc hrel2
          unfold build_children
          rw [hget, hsecond, hrest]

theorem map_fst_zip_sublist {α β : Type} :
    ∀ (l₁ : List α) (l₂ : List β), ((l₁.zip l₂).map Prod.fst).Sublist l₁ := by
  intro l₁
  induction l₁ with
  | nil => intro l₂; simp
  | cons a r ih =>
    intro l₂
    cases l₂ with
    | nil => simp
    | cons b r2 =>
      simp only [List.zip_cons_cons, List.map_cons]
      exact List.Sublist.cons₂ a (ih r2)

theorem map_snd_zip_sublist {α β : Type} :
    ∀ (l₁ : List α) (l₂ : List β), ((l₁.zip l₂).map Prod.snd).Sublist l₂ := by
  intro l₁
  induction l₁ with
  | nil => intro l₂; simp
  | cons a r ih =>
    intro l₂
    cases l₂ with
    | nil => simp
    | cons b r2 =>
      simp only [List.zip_cons_cons, List.map_cons]
      exact List.Sublist.cons₂ b (ih r2)

/-- C5 (amended): Idempotence of reconciliation for standard content.  For a
fetcher none of whose file links is foreign-hosted (`google`), whose
validator probe always returns a truthy token, and whose listings satisfy
the data-model uniqueness invariants (unique file locations, unique child
directory names), rebuilding against the snapshot just built — the remote
hierarchy unchanged — returns the structurally identical snapshot and
performs zero downloads. -/
theorem claim_C5_idempotence (s : Scraper)
    (hgoog : ∀ (url : String) (fus dus fns dns : List String),
      s.get_links url = .ok (fus, dus, fns, dns) →
      ∀ u ∈ fus, strContains u "google" = false)
    (htok : ∀ (url : String) (fus dus fns dns : List String),
      s.get_links url = .ok (fus, dus, fns, dns) →
      ∀ u ∈ fus, truthy (s.fetch_etag u) = true)
    (hfu : ∀ (url : String) (fus dus fns dns : List String),
      s.get_links url = .ok (fus, dus, fns, dns) → fus.Nodup)
    (hdn : ∀ (url : String) (fus dus fns dns : List String),
      s.get_links url = .ok (fus, dus, fns, dns) → dns.Nodup) :
    ∀ (fuel : Nat) (url lp nm : String) (old : Option Node) (t : Node) (c : Nat),
      build_tree s fuel url lp nm old = .ok (t, c) →
      build_tree s fuel url lp nm (some t) = .ok (t, 0) := by
  intro fuel
  induction fuel with
  | zero =>
    intro url lp nm old t c h
    rw [build_tree_zero] at h
    exact Except.noConfusion h
  | succ fuel ih =>
    intro url lp nm old t c h
    obtain ⟨fus, dus, fns, dns, files, fd, children, cd, hgl, hbf, hbc, ht, hc⟩ :=
      build_tree_ok_inv s fuel url lp nm old t c h
    subst ht
    have hng : ∀ p ∈ fus.zip fns, strContains (p : String × String).1 "google" = false :=
      fun p hp => hgoog url fus dus fns dns hgl p.1 (List.of_mem_zip hp).1
    have htr : ∀ p ∈ fus.zip fns, truthy (s.fetch_etag (p : String × String).1) = true :=
      fun p hp => htok url fus dus fns dns hgl p.1 (List.of_mem_zip hp).1
    have hfrel := build_files_rel s lp (dictOf File.url (oldFiles old)) (fus.zip fns) files fd hbf
    have hfurl : List.Forall₂ (fun pr f => File.url f = (pr : String × String).1)
        (fus.zip fns) files :=
      List.Forall₂.imp (fun a b h => h.1) hfrel
    have hmapeq : files.map File.url = (fus.zip fns).map Prod.fst :=
      forall₂_map_eq File.url Prod.fst hfurl
    have hnodup : (files.map File.url).Nodup := by
      rw [hmapeq]
      exact (hfu url fus dus fns dns hgl).sublist (map_fst_zip_sublist fus fns)
    have hdget := forall₂_dictGet File.url files hnodup Prod.fst (fun f hf => hf) hfurl
    have hbf' := build_files_idem s lp (fus.zip fns) files fd _ (dictOf File.url files)
      hbf hng htr hdget
    have hstep : ∀ du p dn o t' c', build_tree s fuel du p dn o = .ok (t', c') →
        (t' : Node).name = dn :=
      fun du p dn o t' c' hh => build_tree_name s fuel du p dn o t' c' hh
    have hcrel := build_children_rel (build_tree s fuel) lp
      (dictOf Node.name (oldChildren old)) hstep (dus.zip dns) children cd hbc
    have hcmap : children.map Node.name = (dus.zip dns).map Prod.snd :=
      forall₂_map_eq Node.name Prod.snd hcrel
    have hcnodup : (children.map Node.name).Nodup := by
      rw [hcmap]
      exact (hdn url fus dus fns dns hgl).sublist (map_snd_zip_sublist dus dns)
    have hcdget := forall₂_dictGet Node.name children hcnodup Prod.snd
      (fun ch hch => hch) hcrel
    have hbc' := build_children_idem s fuel lp ih (dus.zip dns) children cd _
      (dictOf Node.name children) hbc hcdget
    exact build_tree_succ_full s fuel url lp nm (some (Node.mk nm url lp children files))
      fus dus fns dns files 0 children 0 hgl hbf' hbc'

/-- A scraper serving one foreign-hosted (google drive) file link. -/
def googleScraper : Scraper :=
  { get_links := fun _ => .ok (["https://drive.google.com/file/d/abc"], [], ["g.pdf"], [])
    fetch_etag := fun _ => none
    download_file := fun _ _ => .ok "store/g.pdf"
    compute_md5 := fun _ => .ok "HG" }

/-- Counterexample to C5 as stated: with an unchanged fetcher that serves a
foreign-hosted drive link, the second build returns the structurally equal
snapshot but performs one download, not zero — the drive file is
re-downloaded every cycle by design. -/
theorem claim_C5_counterexample :
    build_tree googleScraper 1 "u" "store" "course" none
      = .ok (Node.mk "course" "u" "store" []
          [⟨"https://drive.google.com/file/d/abc", "g.pdf", some "HG", none⟩], 1)
      ∧ build_tree googleScraper 1 "u" "store" "course"
          (some (Node.mk "course" "u" "store" []
            [⟨"https://drive.google.com/file/d/abc", "g.pdf", some "HG", none⟩]))
        = .ok (Node.mk "course" "u" "store" []
            [⟨"https://drive.google.com/file/d/abc", "g.pdf", some "HG", none⟩], 1)
      ∧ (1 : Nat) ≠ 0 :=
  ⟨rfl, rfl, by decide⟩

/-- Witness for C5: the idempotence theorem applied to a concrete
standard-content scraper — the second build reuses everything and counts
zero downloads. -/
theorem claim_C5_idempotence_witness :
    build_tree reuseScraper 1 "u" "store" "course"
      (some (Node.mk "course" "u" "store" []
        [⟨"https://site/a.pdf", "a.pdf", some "H1", some "E1"⟩]))
      = .ok (Node.mk "course" "u" "store" []
          [⟨"https://site/a.pdf", "a.pdf", some "H1", some "E1"⟩], 0) :=
  claim_C5_idempotence reuseScraper
    (by
      intro url fus dus fns dns hgl u hu
      have h1 : fus = ["https://site/a.pdf"] :=
        (congrArg (fun r => r.1) (Except.ok.inj hgl)).symm
      subst h1
      have h2 := List.mem_singleton.mp hu
      subst h2
      decide)
    (by
      intro url fus dus fns dns hgl u hu
      have h1 : fus = ["https://site/a.pdf"] :=
        (congrArg (fun r => r.1) (Except.ok.inj hgl)).symm
      subst h1
      have h2 := List.mem_singleton.mp hu
      subst h2
      decide)
    (by
      intro url fus dus fns dns hgl
      have h1 : fus = ["https://site/a.pdf"] :=
        (congrArg (fun r => r.1) (Except.ok.inj hgl)).symm
      subst h1
      decide)
    (by
      intro url fus dus fns dns hgl
      have h1 : dns = [] :=
        (congrArg (fun r => r.2.2.2) (Except.ok.inj hgl)).symm
      subst h1
      decide)
    1 "u" "store" "course" none
    (Node.mk "course" "u" "store" [] [⟨"https://site/a.pdf", "a.pdf", some "H1", some "E1"⟩])
    1 rfl

/-! ## Failure propagation through the builder -/

theorem download_and_hash_error_download (s : Scraper) (lp : String)
    (etag : Option String) (u n e : String)
    (h : s.download_file u lp = .error e) :
    download_and_hash s u lp etag n = .error e := by
  unfold download_and_hash
  rw [h]

theorem download_and_hash_error_md5 (s : Scraper) (lp : String)
    (etag : Option String) (u n p e : String)
    (hdl : s.download_file u lp = .ok p) (hp : p ≠ "")
    (hmd : s.compute_md5 p = .error e) :
    download_and_hash s u lp etag n = .error e := by
  unfold download_and_hash
  simp only [hdl, hp, hmd]
  rw [if_pos hp]

/-- The conditions under which per-file reconciliation takes the download
path: a foreign-hosted link, no prior file at this location, no truthy
validator, or a changed validator. -/
def downloadCondition (s : Scraper) (ofm : List (String × File)) (u : String) : Prop :=
  strContains u "google" = true
    ∨ dictGet ofm u = none
    ∨ (∃ of, dictGet ofm u = some of
        ∧ (truthy (s.fetch_etag u) = false ∨ of.etag ≠ s.fetch_etag u))

theorem process_file_error_download (s : Scraper) (lp : String)
    (ofm : List (String × File)) (u n e : String)
    (hcond : downloadCondition s ofm u)
    (h : s.download_file u lp = .error e) :
    process_file s lp ofm u n = .error e := by
  rcases hcond with hg | hnone | ⟨of, hof, hc⟩
  · rw [process_file_google s lp ofm u n hg]
    exact download_and_hash_error_download s lp none u n e h
  · by_cases hg : strContains u "google" = true
    · rw [process_file_google s lp ofm u n hg]
      exact download_and_hash_error_download s lp none u n e h
    · rw [process_file_nongoogle_none s lp ofm u n (by simpa using hg) hnone]
      exact download_and_hash_error_download s lp (s.fetch_etag u) u n e h
  · by_cases hg : strContains u "google" = true
    · rw [process_file_google s lp ofm u n hg]
      exact download_and_hash_error_download s lp none u n e h
    · rw [process_file_nongoogle_changed s lp ofm u n of (by simpa using hg) hof
        (hc.imp (fun h1 => by simp [h1]) (fun h1 => h1))]
      exact download_and_hash_error_download s lp (s.fetch_etag u) u n e h

theorem process_file_error_md5 (s : Scraper) (lp : String)
    (ofm : List (String × File)) (u n p e : String)
    (hcond : downloadCondition s ofm u)
    (hdl : s.download_file u lp = .ok p) (hp : p ≠ "")
    (hmd : s.compute_md5 p = .error e) :
    process_file s lp ofm u n = .error e := by
  rcases hcond with hg | hnone | ⟨of, hof, hc⟩
  · rw [process_file_google s lp ofm u n hg]
    exact download_and_hash_error_md5 s lp none u n p e hdl hp hmd
  · by_cases hg : strContains u "google" = true
    · rw [process_file_google s lp ofm u n hg]
      exact download_and_hash_error_md5 s lp none u n p e hdl hp hmd
    · rw [process_file_nongoogle_none s lp ofm u n (by simpa using hg) hnone]
      exact download_and_hash_error_md5 s lp (s.fetch_etag u) u n p e hdl hp hmd
  · by_cases hg : strContains u "google" = true
    · rw [process_file_google s lp ofm u n hg]
      exact download_and_hash_error_md5 s lp none u n p e hdl hp hmd
    · rw [process_file_nongoogle_changed s lp ofm u n of (by simpa using hg) hof
        (hc.imp (fun h1 => by simp [h1]) (fun h1 => h1))]
      exact download_and_hash_error_md5 s lp (s.fetch_etag u) u n p e hdl hp hmd

theorem build_files_error_head (s : Scraper) (lp : String)
    (ofm : List (String × File)) (u n e : String) (rest : List (String × String))
    (h : process_file s lp ofm u n = .error e) :
    build_files s lp ofm ((u, n) :: rest) = .error e := by
  unfold build_files
  rw [h]

theorem build_files_append_error (s : Scraper) (lp : String)
    (ofm : List (String × File)) :
    ∀ (l₁ l₂ : List (String × String)) (fs : List File) (c : Nat) (e : String),
      build_files s lp ofm l₁ = .ok (fs, c) →
      build_files s lp ofm l₂ = .error e →
      build_files s lp ofm (l₁ ++ l₂) = .error e := by
  intro l₁
  induction l₁ with
  | nil => intro l₂ fs c e _ h2; exact h2
  | cons pr rest ih =>
    intro l₂ fs c e h1 h2
    obtain ⟨u, n⟩ := pr
    unfold build_files at h1
    split at h1
    · exact Except.noConfusion h1
    · rename_i r f k hpf
      split at h1
      · exact Except.noConfusion h1
      · rename_i r2 fs' cs hbf
        have hrec := ih l₂ fs' cs e hbf h2
        show build_files s lp ofm ((u, n) :: (rest ++ l₂)) = .error e
        unfold build_files
        rw [hpf, hrec]

theorem build_children_error_head
    (step : String → String → String → Option Node → Except String (Node × Nat))
    (lp : String) (ocm : List (String × Node)) (du dn e : String)
    (rest : List (String × String))
    (h : step du (pathJoin lp dn) dn (dictGet ocm dn) = .error e) :
    build_children step lp ocm ((du, dn) :: rest) = .error e := by
  unfold build_children
  rw [h]

theorem build_children_append_error
    (step : String → String → String → Option Node → Except String (Node × Nat))
    (lp : String) (ocm : List (String × Node)) :
    ∀ (l₁ l₂ : List (String × String)) (cs : List Node) (k : Nat) (e : String),
      build_children step lp ocm l₁ = .ok (cs, k) →
      build_children step lp ocm l₂ = .error e →
      build_children step lp ocm (l₁ ++ l₂) = .error e := by
  intro l₁
  induction l₁ with
  | nil => intro l₂ cs k e _ h2; exact h2
  | cons pr rest ih =>
    intro l₂ cs k e h1 h2
    obtain ⟨du, dn⟩ := pr
    unfold build_children at h1
    split at h1
    · exact Except.noConfusion h1
    · rename_i r ch k1 hch
      split at h1
      · exact Except.noConfusion h1
      · rename_i r2 cs' ks hbc
        have hrec := ih l₂ cs' ks e hbc h2
        show build_children step lp ocm ((du, dn) :: (rest ++ l₂)) = .error e
        unfold build_children
        rw [hch, hrec]

/-- C8: Builder failure propagation.  Any failure during the recursive walk
— listing a location's children (`get_links`), downloading a file
(`download_file`), or computing a hash (`compute_md5`) — propagates upward
unchanged and the entire build for that location aborts, producing no node:
(i) a listing failure aborts the build; (ii) a download failure on any
download path fails that file's reconciliation; (iii) so does a hash
failure after a successful download; (iv) a failing file anywhere in the
file loop fails the whole loop; (v) a failing file loop aborts the build;
(vi) a failing child build anywhere in the directory loop fails the whole
loop; (vii) a failing directory loop aborts the build; (viii) end to end, a
file whose reconciliation fails (by download or hash) anywhere in the
listing aborts the entire build with that error; (ix) end to end, a child
subtree whose build fails anywhere in the listing aborts the entire build
with that error.  Nothing is caught or downgraded. -/
theorem claim_C8_failure_propagation :
    (∀ (s : Scraper) (fuel : Nat) (url lp nm : String) (old : Option Node) (e : String),
      s.get_links url = .error e →
      build_tree s (fuel + 1) url lp nm old = .error e)
    ∧ (∀ (s : Scraper) (lp : String) (ofm : List (String × File)) (u n e : String),
      downloadCondition s ofm u →
      s.download_file u lp = .error e →
      process_file s lp ofm u n = .error e)
    ∧ (∀ (s : Scraper) (lp : String) (ofm : List (String × File)) (u n p e : String),
      downloadCondition s ofm u →
      s.download_file u lp = .ok p → p ≠ "" → s.compute_md5 p = .error e →
      process_file s lp ofm u n = .error e)
    ∧ (∀ (s : Scraper) (lp : String) (ofm : List (String × File))
        (l₁ l₂ : List (String × String)) (u n e : String) (fs : List File) (c : Nat),
      build_files s lp ofm l₁ = .ok (fs, c) →
      process_file s lp ofm u n = .error e →
      build_files s lp ofm (l₁ ++ (u, n) :: l₂) = .error e)
    ∧ (∀ (s : Scraper) (fuel : Nat) (url lp nm : String) (old : Option Node) (e : String)
        (fus dus fns dns : List String),
      s.get_links url = .ok (fus, dus, fns, dns) →
      build_files s lp (dictOf File.url (oldFiles old)) (fus.zip fns) = .error e →
      build_tree s (fuel + 1) url lp nm old = .error e)
    ∧ (∀ (step : String → String → String → Option Node → Except String (Node × Nat))
        (lp : String) (ocm : List (String × Node))
        (l₁ l₂ : List (String × String)) (du dn e : String) (cs : List Node) (k : Nat),
      build_children step lp ocm l₁ = .ok (cs, k) →
      step du (pathJoin lp dn) dn (dictGet ocm dn) = .error e →
      build_children step lp ocm (l₁ ++ (du, dn) :: l₂) = .error e)
    ∧ (∀ (s : Scraper) (fuel : Nat) (url lp nm : String) (old : Option Node) (e : String)
        (fus dus fns dns : List String) (files : List File) (fd : Nat),
      s.get_links url = .ok (fus, dus, fns, dns) →
      build_files s lp (dictOf File.url (oldFiles old)) (fus.zip fns) = .ok (files, fd) →
      build_children (build_tree s fuel) lp (dictOf Node.name (oldChildren old))
        (dus.zip dns) = .error e →
      build_tree s (fuel + 1) url lp nm old = .error e)
    ∧ (∀ (s : Scraper) (fuel : Nat) (url lp nm : String) (old : Option Node) (e : String)
        (fus dus fns dns : List String) (l₁ l₂ : List (String × String))
        (u n : String) (fs : List File) (c : Nat),
      s.get_links url = .ok (fus, dus, fns, dns) →
      fus.zip fns = l₁ ++ (u, n) :: l₂ →
      build_files s lp (dictOf File.url (oldFiles old)) l₁ = .ok (fs, c) →
      process_file s lp (dictOf File.url (oldFiles old)) u n = .error e →
      build_tree s (fuel + 1) url lp nm old = .error e)
    ∧ (∀ (s : Scraper) (fuel : Nat) (url lp nm : String) (old : Option Node) (e : String)
        (fus dus fns dns : List String) (files : List File) (fd : Nat)
        (l₁ l₂ : List (String × String)) (du dn : String) (cs : List Node) (k : Nat),
      s.get_links url = .ok (fus, dus, fns, dns) →
      build_files s lp (dictOf File.url (oldFiles old)) (fus.zip fns) = .ok (files, fd) →
      dus.zip dns = l₁ ++ (du, dn) :: l₂ →
      build_children (build_tree s fuel) lp (dictOf Node.name (oldChildren old)) l₁
        = .ok (cs, k) →
      build_tree s fuel du (pathJoin lp dn) dn
        (dictGet (dictOf Node.name (oldChildren old)) dn) = .error e →
      build_tree s (fuel + 1) url lp nm old = .error e) := by
  refine ⟨?_, ?_, ?_, ?_, ?_, ?_, ?_, ?_, ?_⟩
  · intro s fuel url lp nm old e h
    rw [build_tree_succ, h]
  · exact process_file_error_download
  · exact process_file_error_md5
  · intro s lp ofm l₁ l₂ u n e fs c hok hpf
    exact build_files_append_error s lp ofm l₁ ((u, n) :: l₂) fs c e hok
      (build_files_error_head s lp ofm u n e l₂ hpf)
  · intro s fuel url lp nm old e fus dus fns dns hgl hbf
    simp only [build_tree_succ, hgl, hbf]
  · intro step lp ocm l₁ l₂ du dn e cs k hok hch
    exact build_children_append_error step lp ocm l₁ ((du, dn) :: l₂) cs k e hok
      (build_children_error_head step lp ocm du dn e l₂ hch)
  · intro s fuel url lp nm old e fus dus fns dns files fd hgl hbf hbc
    simp only [build_tree_succ, hgl, hbf, hbc]
  · intro s fuel url lp nm old e fus dus fns dns l₁ l₂ u n fs c hgl hzip hok hpf
    have hbf : build_files s lp (dictOf File.url (oldFiles old)) (fus.zip fns)
        = .error e := by
      rw [hzip]
      exact build_files_append_error s lp (dictOf File.url (oldFiles old)) l₁
        ((u, n) :: l₂) fs c e hok
        (build_files_error_head s lp (dictOf File.url (oldFiles old)) u n e l₂ hpf)
    simp only [build_tree_succ, hgl, hbf]
  · intro s fuel url lp nm old e fus dus fns dns files fd l₁ l₂ du dn cs k
      hgl hbf hzip hok hch
    have hbc : build_children (build_tree s fuel) lp
        (dictOf Node.name (oldChildren old)) (dus.zip dns) = .error e := by
      rw [hzip]
      exact build_children_append_error (build_tree s fuel) lp
        (dictOf Node.name (oldChildren old)) l₁ ((du, dn) :: l₂) cs k e hok
        (build_children_error_head (build_tree s fuel) lp
          (dictOf Node.name (oldChildren old)) du dn e l₂ hch)
    simp only [build_tree_succ, hgl, hbf, hbc]

/-- A scraper whose listing succeeds but whose downloads fail. -/
def dlFailScraper : Scraper :=
  { get_links := fun _ => .ok (["https://site/a.pdf"], [], ["a.pdf"], [])
    fetch_etag := fun _ => none
    download_file := fun _ _ => .error "NetworkError: download failed"
    compute_md5 := fun _ => .ok "H" }

/-- Witness for C8: a download failure on the single listed file aborts the
entire build with that error (end-to-end conjunct viii). -/
theorem claim_C8_failure_propagation_witness :
    build_tree dlFailScraper 1 "https://site/docs" "store" "course" none
      = .error "NetworkError: download failed" :=
  claim_C8_failure_propagation.2.2.2.2.2.2.2.1 dlFailScraper 0 "https://site/docs"
    "store" "course" none "NetworkError: download failed"
    ["https://site/a.pdf"] [] ["a.pdf"] [] [] [] "https://site/a.pdf" "a.pdf" [] 0
    rfl rfl rfl rfl
